import Mathlib

/-!
Verification of the circle-to-task conversion engine.

The definitions below are a shallow embedding of the Go sources of the
repository (the complete generation of the engine: the converter in
`part_000`, the pattern analyzer in `part_003`, the step handling in
`part_004`, together with the type declarations in `part_001`).

Modelling conventions:
* Go `interface{}` values produced by the YAML deserializer are modelled by
  the inductive `YVal` (string, integer, boolean, null, sequence, mapping).
* Go maps are modelled as association lists `List (String × key)`; a map
  write is `insertA` (replace-or-append), a map read is `lookupA` (first
  match).  Go's unspecified map iteration order is modelled by quantifying
  theorems over all list orders; permutation hypotheses relate two runs
  whose maps iterate differently.
* Go strings are Lean `String`s; character-level functions work on `.data`.
  `strings.ReplaceAll(cmd, "\n", " ")` is a single-character replacement and
  is embedded as the character map sending `'\n'` to `' '`.
  `strings.ToUpper` / `strings.ToLower` are embedded on the ASCII range
  (all inputs exercised here are ASCII).
* A nil Go map or nil interface value is `none` / `YVal.null`; the struct
  fields `Job.Parameters`, `Task.Vars` and `Taskfile.Env` are declared in a
  source generation missing from the snapshot, but every use site is in
  `part_000`; the field types follow those use sites.
-/

namespace CircleToTask

/-- Structured YAML-like value standing for Go `interface{}`. -/
inductive YVal where
  | str : String → YVal
  | num : Int → YVal
  | bool : Bool → YVal
  | null : YVal
  | arr : List YVal → YVal
  | map : List (String × YVal) → YVal

/-- `DockerImage` from the config model. -/
structure DockerImage where
  Image : String
deriving DecidableEq

/-- `Job` from the config model (`part_001`, plus the `Parameters` field
used throughout `part_000`). -/
structure Job where
  Executor : YVal
  Docker : List DockerImage
  Machine : YVal
  Steps : List YVal
  Environment : YVal
  Parameters : Option (List (String × YVal))

/-- `Command` (reusable CI command) from the config model. -/
structure Command where
  Description : String
  Parameters : Option (List (String × YVal))
  Steps : List YVal

/-- `CircleCIConfig` from the config model.  `Commands` is nil-able. -/
structure CircleCIConfig where
  Version : String
  Jobs : List (String × Job)
  Commands : Option (List (String × Command))
  Workflows : YVal
  Executors : YVal

/-- `Task` from the Taskfile model (`part_001`, plus the `Vars` field used
in `part_000`). -/
structure Task where
  Desc : String
  Cmds : List String
  Deps : List String
  Dir : String
  Silent : Bool
  Vars : Option (List (String × String))
deriving DecidableEq

/-- `Taskfile` from the Taskfile model (`part_001`, plus the `Env` field
used in `part_000`). -/
structure Taskfile where
  Version : String
  Tasks : List (String × Task)
  Env : Option (List (String × String))
deriving DecidableEq

/-- Go map read: first entry with the key. -/
def lookupA {α : Type} (k : String) : List (String × α) → Option α
  | [] => none
  | (k', v) :: rest => if k' = k then some v else lookupA k rest

/-- Go map write: replace the entry with this key, or append a new one. -/
def insertA {α : Type} (l : List (String × α)) (k : String) (v : α) : List (String × α) :=
  match l with
  | [] => [(k, v)]
  | (k', v') :: rest => if k' = k then (k, v) :: rest else (k', v') :: insertA rest k v

/-- The keys of an association list. -/
def keysA {α : Type} (l : List (String × α)) : List String := l.map Prod.fst

/-- Go `unicode.IsSpace` (Latin-1 white space plus the Unicode
White_Space code points). -/
def goIsSpace (c : Char) : Bool :=
  decide (c = ' ' ∨ c = '\t' ∨ c = '\n' ∨ (11 ≤ c.toNat ∧ c.toNat ≤ 13) ∨
    c.toNat = 0x85 ∨ c.toNat = 0xA0 ∨ c.toNat = 0x1680 ∨
    (0x2000 ≤ c.toNat ∧ c.toNat ≤ 0x200A) ∨ c.toNat = 0x2028 ∨ c.toNat = 0x2029 ∨
    c.toNat = 0x202F ∨ c.toNat = 0x205F ∨ c.toNat = 0x3000)

/-- Fuelled core of `goFields`, structurally recursive so concrete inputs
compute.  Every step consumes at least one character, so any fuel at least
the input's length never runs out (`goFieldsFuel_congr` below). -/
def goFieldsFuel : Nat → List Char → List (List Char)
  | _, [] => []
  | 0, _ :: _ => []
  | fuel + 1, c :: cs =>
    if goIsSpace c then goFieldsFuel fuel cs
    else (c :: cs.takeWhile (fun d => !(goIsSpace d))) ::
      goFieldsFuel fuel (cs.dropWhile (fun d => !(goIsSpace d)))

/-- Go `strings.Fields`: maximal runs of non-space characters, at its
sufficient fuel. -/
def goFields (l : List Char) : List (List Char) := goFieldsFuel l.length l

/-- Go `strings.TrimSpace` on character lists. -/
def goTrimSpace (l : List Char) : List Char :=
  ((l.dropWhile goIsSpace).reverse.dropWhile goIsSpace).reverse

/-- Go `strings.Join` on character-list tokens. -/
def goJoin (sep : List Char) : List (List Char) → List Char
  | [] => []
  | [x] => x
  | x :: y :: ys => x ++ sep ++ goJoin sep (y :: ys)

/-- Go `strings.Join` on strings. -/
def goJoinStr (sep : String) : List String → String
  | [] => ""
  | [x] => x
  | x :: y :: ys => x ++ sep ++ goJoinStr sep (y :: ys)

/-- Go `strings.ToUpper`, ASCII range. -/
def goToUpperChar (c : Char) : Char :=
  if 'a' ≤ c ∧ c ≤ 'z' then Char.ofNat (c.toNat - 32) else c

/-- Go `strings.ToUpper` on strings (ASCII range). -/
def goToUpper (s : String) : String := String.mk (s.data.map goToUpperChar)

/-- Go `strings.ToLower`, ASCII range. -/
def goToLowerChar (c : Char) : Char :=
  if 'A' ≤ c ∧ c ≤ 'Z' then Char.ofNat (c.toNat + 32) else c

/-- Go `strings.ToLower` on strings (ASCII range). -/
def goToLower (s : String) : String := String.mk (s.data.map goToLowerChar)

/-- Is `p` a prefix of `l`?  (Boolean, character lists.) -/
def isPrefixL : List Char → List Char → Bool
  | [], _ => true
  | _ :: _, [] => false
  | p :: ps, c :: cs => p == c && isPrefixL ps cs

/-- Go `strings.Index`: index of the first occurrence of `pat` in `l`. -/
def indexOfSub (pat : List Char) : List Char → Option Nat
  | [] => if pat.isEmpty then some 0 else none
  | c :: cs => if isPrefixL pat (c :: cs) then some 0 else (indexOfSub pat cs).map (· + 1)

/-- Go `strings.Contains`. -/
def goContains (s sub : String) : Bool := (indexOfSub sub.data s.data).isSome

/-- Go `strings.HasPrefix`. -/
def goHasPrefixStr (s pre : String) : Bool := isPrefixL pre.data s.data

/-- `normalizeCommand` (`part_004`): trim, replace line breaks by spaces,
collapse whitespace runs (`strings.Join(strings.Fields(cmd), " ")`). -/
def normalizeCommand (cmd : String) : String :=
  let t := goTrimSpace cmd.data
  let r := t.map (fun c => if c = '\n' then ' ' else c)
  String.mk (goJoin [' '] (goFields r))

/-- Insertion into a key-sorted list of formatted map entries (Go's `fmt`
package prints map entries in sorted key order). -/
def insertSortedPair (p : String × String) : List (String × String) → List (String × String)
  | [] => [p]
  | q :: rest => if p.1 < q.1 then p :: q :: rest else q :: insertSortedPair p rest

/-- Sort formatted map entries by key. -/
def sortPairs : List (String × String) → List (String × String)
  | [] => []
  | p :: rest => insertSortedPair p (sortPairs rest)

/-- Go `fmt.Sprintf("%v", value)` on the modelled `interface{}` values
(Go's `fmt` prints map entries in sorted key order). -/
def goFmtV : YVal → String
  | .str s => s
  | .num n => toString n
  | .bool b => if b then "true" else "false"
  | .null => "<nil>"
  | .arr l => "[" ++ goJoinStr " " (goFmtVList l) ++ "]"
  | .map m =>
    "map[" ++ goJoinStr " " ((sortPairs (goFmtVPairs m)).map (fun p => p.1 ++ ":" ++ p.2)) ++ "]"
where
  /-- `%v` of each element of a slice. -/
  goFmtVList : List YVal → List String
    | [] => []
    | v :: vs => goFmtV v :: goFmtVList vs
  /-- `%v` of each value of a map, keeping keys. -/
  goFmtVPairs : List (String × YVal) → List (String × String)
    | [] => []
    | (k, v) :: rest => (k, goFmtV v) :: goFmtVPairs rest

/-- Go `fmt.Sprintf("%s", value)` on `interface{}`: the string itself for
strings; for any other value Go decorates the `%v` form with a verb
mismatch marker (never exercised by the repository's outputs on strings). -/
def goFmtS (v : YVal) : String :=
  match v with
  | .str s => s
  | _ => "%!s(" ++ goFmtV v ++ ")"

/-- `extractCommand` (`part_004`): the command text of a `run` step. -/
def extractCommand (step : YVal) : String :=
  match step with
  | .map stepMap =>
    match lookupA "run" stepMap with
    | some (.str v) => v
    | some (.map v) =>
      match lookupA "command" v with
      | some (.str cmdStr) => cmdStr
      | _ => ""
    | some _ => ""
    | none => ""
  | _ => ""

/-- The body of `convertStepToCommand`'s switch over the first map entry. -/
def convertStepEntry (key : String) (value : YVal) : String :=
  if key = "checkout" then "git checkout HEAD"
  else if key = "setup_remote_docker" then
    "echo \x27Skipping setup_remote_docker (CircleCI server only)\x27"
  else if key = "save_cache" then
    match value with
    | .map cacheConfig =>
      match lookupA "paths" cacheConfig with
      | some paths => "# Local cache: would save " ++ goFmtV paths
      | none => "echo \x27Skipping save_cache (CircleCI server only)\x27"
    | _ => "echo \x27Skipping save_cache (CircleCI server only)\x27"
  else if key = "restore_cache" then "echo \x27Skipping restore_cache (CircleCI server only)\x27"
  else if key = "persist_to_workspace" then
    match value with
    | .map workspaceConfig =>
      match lookupA "paths" workspaceConfig with
      | some paths => "mkdir -p ./workspace && cp -r " ++ goFmtV paths ++ " ./workspace/"
      | none => "mkdir -p ./workspace"
    | _ => "mkdir -p ./workspace"
  else if key = "attach_workspace" then "echo \x27Using local workspace if available\x27"
  else if key = "store_artifacts" then
    match value with
    | .map artifactConfig =>
      match lookupA "path" artifactConfig with
      | some path => "mkdir -p ./artifacts && cp -r " ++ goFmtS path ++ " ./artifacts/"
      | none => "mkdir -p ./artifacts"
    | _ => "mkdir -p ./artifacts"
  else if key = "store_test_results" then
    match value with
    | .map testConfig =>
      match lookupA "path" testConfig with
      | some path => "mkdir -p ./test-results && cp -r " ++ goFmtS path ++ " ./test-results/"
      | none => "mkdir -p ./test-results"
    | _ => "mkdir -p ./test-results"
  else
    match value with
    | .str valueStr => valueStr
    | _ => "echo \x27Custom step not converted: " ++ key ++ "\x27"

/-- `convertStepToCommand` (`part_004`): local-equivalent command line of a
step.  A Go `for key, value := range stepMap` whose body returns on every
branch only ever sees one entry; the list head models the entry picked by
Go's map iteration (theorems below quantify over all list orders). -/
def convertStepToCommand (step : YVal) : String :=
  match step with
  | .str stepStr => if stepStr = "checkout" then "git checkout HEAD" else "task " ++ stepStr
  | .map stepMap =>
    match stepMap with
    | [] => "echo \x27Unknown step type\x27"
    | (key, value) :: _ => convertStepEntry key value
  | _ => "echo \x27Unknown step type\x27"

/-- The step keys `convertStepToCommand`'s switch handles explicitly. -/
def handledStepKeys : List String :=
  ["checkout", "setup_remote_docker", "save_cache", "restore_cache",
   "persist_to_workspace", "attach_workspace", "store_artifacts", "store_test_results"]

/-- The built-in step names recognized by `isCommandInvocation`. -/
def builtInSteps : List String :=
  ["run", "checkout", "setup_remote_docker", "save_cache", "restore_cache",
   "persist_to_workspace", "attach_workspace", "store_artifacts", "store_test_results",
   "when", "unless"]

/-- `isCommandInvocation` (`part_004`): first map key that is not a
built-in step name. -/
def isCommandInvocation (step : YVal) : Option String :=
  match step with
  | .map stepMap => (stepMap.find? (fun p => !(builtInSteps.contains p.1))).map Prod.fst
  | _ => none

/-- The common-word table of `isCommonWord` (`part_003`). -/
def commonWords : List String :=
  ["and", "or", "the", "a", "an", "with", "for", "to", "of", "in"]

/-- `isCommonWord` (`part_003`). -/
def isCommonWord (word : String) : Bool := commonWords.contains (goToLower word)

/-- `generateTaskName` (`part_003`): up to the first three non-flag,
non-common words of the command, joined with hyphens. -/
def generateTaskName (cmd : String) : String :=
  let words := (goFields cmd.data).map String.mk
  if words = [] then "common-task"
  else
    let parts := (words.take 3).filter (fun w => !(goHasPrefixStr w "-") && !(isCommonWord w))
    if parts = [] then "common-task" else goJoinStr "-" parts

/-- The `Task` literal `analyzePatterns` builds for a common pattern. -/
def patternTask (cmd : String) (count : Nat) : Task :=
  { Desc := "Common task - used in " ++ toString count ++ " jobs",
    Cmds := [cmd], Deps := [], Dir := "", Silent := false, Vars := none }

/-- `commandCounts[normalized]++`. -/
def bumpCount (counts : List (String × Nat)) (k : String) : List (String × Nat) :=
  match counts with
  | [] => [(k, 1)]
  | (k', n) :: rest => if k' = k then (k', n + 1) :: rest else (k', n) :: bumpCount rest k

/-- The `commandCounts` map of `analyzePatterns` (`part_003`): occurrence
counts of normalized plain commands across all job steps. -/
def countsOfConfig (config : CircleCIConfig) : List (String × Nat) :=
  config.Jobs.foldl
    (fun acc p => p.2.Steps.foldl
      (fun acc2 step =>
        let cmd := extractCommand step
        if cmd ≠ "" then bumpCount acc2 (normalizeCommand cmd) else acc2)
      acc)
    []

/-- `analyzePatterns` (`part_003`): a pattern task for every normalized
command counted at least twice, keyed by its generated name. -/
def analyzePatterns (config : CircleCIConfig) : List (String × Task) :=
  (countsOfConfig config).foldl
    (fun pats p =>
      if 2 ≤ p.2 then insertA pats (generateTaskName p.1) (patternTask p.1 p.2) else pats)
    []

/-- `findPatternTask` (`part_003`): name of the first pattern task whose
command normalizes to `normalized`, or `""`. -/
def findPatternTask (normalized : String) (patterns : List (String × Task)) : String :=
  match patterns.find? (fun p =>
      match p.2.Cmds with
      | [] => false
      | c :: _ => normalizeCommand c == normalized) with
  | some p => p.1
  | none => ""

/-- Literal brace characters. -/
def braceL : Char := Char.ofNat 123

/-- Closing brace character. -/
def braceR : Char := Char.ofNat 125

/-- The replacement opener `\x7b\x7b.` (see `replOpen_eq_literal`). -/
def replOpen : List Char := [braceL, braceL, '.']

/-- The replacement closer `\x7d\x7d` (see `replClose_eq_literal`). -/
def replClose : List Char := [braceR, braceR]

/-- The marker opener `<< parameters.` (14 characters; see
`patOpen_eq_literal`). -/
def patOpen : List Char :=
  ['<', '<', ' ', 'p', 'a', 'r', 'a', 'm', 'e', 't', 'e', 'r', 's', '.']

/-- The marker closer ` >>` searched for (see `patClose_eq_literal`). -/
def patClose : List Char := [' ', '>', '>']

/-- The rewrite loop of `convertParameterSyntax` (`part_000`).  `fuel`
bounds the iteration count: every Go iteration finds the opener at a real
occurrence, forcing the closer at offset at least 14, so each iteration
shrinks the string by 12 characters; the initial string length therefore
over-approximates the number of iterations of the Go loop. -/
def convertParamFuel : Nat → List Char → List Char
  | 0, l => l
  | fuel + 1, l =>
    match indexOfSub patOpen l with
    | none => l
    | some start =>
      match indexOfSub patClose (l.drop start) with
      | none => l
      | some e =>
        let endIdx := e + start
        let paramName := ((l.take endIdx).drop (start + 14)).map goToUpperChar
        convertParamFuel fuel
          (l.take start ++ replOpen ++ paramName ++ replClose ++ l.drop (endIdx + 3))

/-- `convertParameterSyntax` (`part_000`): rewrite `<< parameters.name >>`
markers into `\x7b\x7b.NAME\x7d\x7d`. -/
def convertParameterSyntax (cmd : String) : String :=
  String.mk (convertParamFuel cmd.data.length cmd.data)

/-- The shared parameter-to-variable derivation of `convertJobToTask` and
`convertCommandsToTasks` (`part_000`). -/
def varsFromParams : Option (List (String × YVal)) → List (String × String)
  | none => []
  | some ps =>
    ps.foldl
      (fun vars p =>
        match p.2 with
        | .map paramMap =>
          let defaultValue :=
            match lookupA "default" paramMap with
            | some v => goFmtV v
            | none => ""
          insertA vars (goToUpper p.1)
            ("\x7b\x7b." ++ goToUpper p.1 ++ " | default \"" ++ defaultValue ++ "\"\x7d\x7d")
        | _ => vars)
      []

/-- `generateTaskCallWithParams` (`part_000`). -/
def generateTaskCallWithParams (commandName : String) (step : YVal)
    (commands : Option (List (String × Command))) : String :=
  match step with
  | .map stepMap =>
    match lookupA commandName stepMap with
    | some (.map paramMap) =>
      let paramPairs := paramMap.map (fun p => goToUpper p.1 ++ "=" ++ goFmtV p.2)
      if paramPairs ≠ [] then "task " ++ commandName ++ " " ++ goJoinStr " " paramPairs
      else "task " ++ commandName
    | some _ => "task " ++ commandName
    | none => "task " ++ commandName
  | _ => "task " ++ commandName

/-- Read of the possibly-nil `commands` map. -/
def lookupCommand (commands : Option (List (String × Command))) (k : String) : Option Command :=
  match commands with
  | none => none
  | some l => lookupA k l

/-- Branch 1 of `convertJobToTask`'s step loop (`part_000`): a plain
command is rewritten, looked up among the pattern tasks, and becomes a
dependency edge on a hit or an inline command line otherwise. -/
def jobStepPlain (patterns : List (String × Task)) (acc : List String × List String)
    (cmd : String) : List String × List String :=
  let convertedCmd := convertParameterSyntax cmd
  let normalized := normalizeCommand convertedCmd
  let taskName := findPatternTask normalized patterns
  if taskName ≠ "" then (acc.1, acc.2 ++ [taskName])
  else (acc.1 ++ [convertedCmd], acc.2)

/-- Branches 2-5 of `convertJobToTask`'s step loop (`part_000`): string
steps become dependency edges on defined commands or converted/commented
lines; parameterized command invocations become call lines; everything
else is converted or commented. -/
def jobStepOther (commands : Option (List (String × Command)))
    (acc : List String × List String) (step : YVal) : List String × List String :=
  match step with
  | .str stepStr =>
    if (lookupCommand commands stepStr).isSome then (acc.1, acc.2 ++ [stepStr])
    else
      let converted := convertStepToCommand step
      if !(goContains converted "Skipping") && !(goContains converted "task ") then
        (acc.1 ++ [converted], acc.2)
      else (acc.1 ++ ["# " ++ converted], acc.2)
  | _ =>
    match isCommandInvocation step with
    | some commandName =>
      (acc.1 ++ [generateTaskCallWithParams commandName step commands], acc.2)
    | none =>
      let converted := convertStepToCommand step
      if !(goContains converted "Skipping") then (acc.1 ++ [converted], acc.2)
      else (acc.1 ++ ["# " ++ converted], acc.2)

/-- One iteration of the step loop of `convertJobToTask` (`part_000`),
accumulating `(cmds, deps)`. -/
def jobStepFold (patterns : List (String × Task)) (commands : Option (List (String × Command)))
    (acc : List String × List String) (step : YVal) : List String × List String :=
  let cmd := extractCommand step
  if cmd ≠ "" then jobStepPlain patterns acc cmd
  else jobStepOther commands acc step

/-- `convertJobToTask` (`part_000`). -/
def convertJobToTask (jobName : String) (job : Job) (patterns : List (String × Task))
    (commands : Option (List (String × Command))) : Task :=
  let vars := varsFromParams job.Parameters
  let acc := job.Steps.foldl (jobStepFold patterns commands) ([], [])
  { Desc := "Task converted from CircleCI job: " ++ jobName,
    Cmds := acc.1, Deps := acc.2, Dir := "", Silent := false,
    Vars := if vars = [] then none else some vars }

/-- The step loop of `convertCommandsToTasks` (`part_000`). -/
def commandStepsToCmds (steps : List YVal) : List String :=
  steps.foldl
    (fun acc step =>
      let cmd := extractCommand step
      if cmd ≠ "" then acc ++ [convertParameterSyntax cmd]
      else
        let converted := convertStepToCommand step
        if !(goContains converted "Skipping") then acc ++ [convertParameterSyntax converted]
        else acc ++ ["# " ++ converted])
    []

/-- The `Task` built for one reusable command by `convertCommandsToTasks`
(`part_000`): derived variables, converted step commands, description. -/
def commandTask (commandName : String) (command : Command) : Task :=
  let vars := varsFromParams command.Parameters
  let cmdsList := commandStepsToCmds command.Steps
  let desc :=
    if command.Description = "" then "Task converted from CircleCI command: " ++ commandName
    else command.Description
  { Desc := desc, Cmds := cmdsList, Deps := [], Dir := "", Silent := false,
    Vars := if vars = [] then none else some vars }

/-- `convertCommandsToTasks` (`part_000`). -/
def convertCommandsToTasks : Option (List (String × Command)) → List (String × Task)
  | none => []
  | some cmds => cmds.foldl (fun tasks p => insertA tasks p.1 (commandTask p.1 p.2)) []

/-- The `clean` task of `addLocalDevTasks` (`part_000`). -/
def cleanTask : Task :=
  { Desc := "Clean local build artifacts",
    Cmds := ["rm -rf ./workspace ./artifacts ./test-results",
             "echo \x27Cleaned local CircleCI simulation directories\x27"],
    Deps := [], Dir := "", Silent := false, Vars := none }

/-- The `setup-local` task of `addLocalDevTasks` (`part_000`). -/
def setupLocalTask : Task :=
  { Desc := "Setup local environment for CircleCI simulation",
    Cmds := ["mkdir -p ./workspace ./artifacts ./test-results",
             "echo \x27Local CircleCI directories created\x27",
             "echo \x27Note: Some steps are CircleCI-server only and will be skipped\x27"],
    Deps := [], Dir := "", Silent := false, Vars := none }

/-- The `ci-local` task of `addLocalDevTasks` (`part_000`). -/
def ciLocalTask : Task :=
  { Desc := "Run full CI pipeline locally (where possible)",
    Cmds := ["echo \x27Running local CI simulation...\x27",
             "echo \x27Note: This runs the build logic, but skips server-only features\x27"],
    Deps := ["setup-local"], Dir := "", Silent := false, Vars := none }

/-- `addLocalDevTasks` (`part_000`): unconditional writes of the three
local-development tasks. -/
def addLocalDevTasks (tasks : List (String × Task)) : List (String × Task) :=
  insertA (insertA (insertA tasks "clean" cleanTask) "setup-local" setupLocalTask)
    "ci-local" ciLocalTask

/-- `[A-Z_]`, the first character class of the environment-variable scan. -/
def isUpperStart (c : Char) : Bool := decide (('A' ≤ c ∧ c ≤ 'Z') ∨ c = '_')

/-- `[A-Z0-9_]`, the continuation class of the environment-variable scan. -/
def isUpperCont (c : Char) : Bool := isUpperStart c || decide ('0' ≤ c ∧ c ≤ '9')

/-- Regexp word characters, for the `\b` boundary of the scan. -/
def isWordChar (c : Char) : Bool :=
  decide (('A' ≤ c ∧ c ≤ 'Z') ∨ ('a' ≤ c ∧ c ≤ 'z') ∨ ('0' ≤ c ∧ c ≤ '9') ∨ c = '_')

/-- The scan of `extractEnvironmentVariables`'s regular expression
(two alternatives, non-overlapping leftmost matches, word boundary after
the first alternative's identifier).  Every step of the scan advances at
least one character, so a fuel equal to the scanned length is always
sufficient. -/
def scanEnvFuel : Nat → List Char → List String
  | 0, _ => []
  | _, [] => []
  | fuel + 1, c :: rest =>
    if c = '$' then
      match rest with
      | [] => []
      | d :: r2 =>
        if d = braceL then
          match r2 with
          | [] => scanEnvFuel fuel rest
          | e :: r3 =>
            if isUpperStart e then
              let nm := e :: r3.takeWhile isUpperCont
              match r3.dropWhile isUpperCont with
              | f :: r5 =>
                if f = braceR then String.mk nm :: scanEnvFuel fuel r5
                else scanEnvFuel fuel rest
              | [] => scanEnvFuel fuel rest
            else scanEnvFuel fuel rest
        else if isUpperStart d then
          let nm := d :: r2.takeWhile isUpperCont
          match r2.dropWhile isUpperCont with
          | f :: r5 =>
            if isWordChar f then scanEnvFuel fuel rest
            else String.mk nm :: scanEnvFuel fuel (f :: r5)
          | [] => [String.mk nm]
        else scanEnvFuel fuel rest
    else scanEnvFuel fuel rest

/-- The environment-variable scan at its sufficient fuel. -/
def scanEnv (l : List Char) : List String := scanEnvFuel l.length l

/-- `extractEnvironmentVariables` (`part_000`): scan of all plain-command
texts of jobs and reusable commands; the result list keeps first
occurrences (the set semantics of the Go `map[string]bool`). -/
def extractEnvironmentVariables (config : CircleCIConfig) : List String :=
  let fromJobs :=
    config.Jobs.foldl
      (fun acc p => p.2.Steps.foldl
        (fun acc2 step =>
          let cmd := extractCommand step
          if cmd ≠ "" then acc2 ++ scanEnv cmd.data else acc2)
        acc)
      []
  match config.Commands with
  | none => fromJobs
  | some cs =>
    cs.foldl
      (fun acc p => p.2.Steps.foldl
        (fun acc2 step =>
          let cmd := extractCommand step
          if cmd ≠ "" then acc2 ++ scanEnv cmd.data else acc2)
        acc)
      fromJobs

/-- Deduplication keeping first occurrences. -/
def dedupFirst (seen : List String) : List String → List String
  | [] => []
  | x :: xs => if seen.contains x then dedupFirst seen xs else x :: dedupFirst (x :: seen) xs

/-- The built-in defaults table of `addLocalEnvDefaults` (`part_000`). -/
def circleCIDefaults : List (String × String) :=
  [("CIRCLE_PROJECT_REPONAME", "local-repo"),
   ("CIRCLE_PROJECT_USERNAME", "local-user"),
   ("CIRCLE_BRANCH", "main"),
   ("CIRCLE_BUILD_NUM", "1"),
   ("CIRCLE_SHA1", "local-sha"),
   ("CIRCLE_WORKING_DIRECTORY", "."),
   ("CIRCLE_TEST_REPORTS", "./test-results"),
   ("HOME", "$HOME"),
   ("PWD", "$PWD"),
   ("NODE_ENV", "development"),
   ("AWS_DEFAULT_REGION", "us-east-1")]

/-- `addLocalEnvDefaults` (`part_000`), as the `Env` value it assigns. -/
def addLocalEnvDefaultsEnv (config : CircleCIConfig) : Option (List (String × String)) :=
  let used := dedupFirst [] (extractEnvironmentVariables config)
  let envVars :=
    used.foldl
      (fun acc v =>
        match lookupA v circleCIDefaults with
        | some d => insertA acc v d
        | none => insertA acc v ("# TODO: Set " ++ v ++ " for local development"))
      []
  if envVars = [] then none else some envVars

/-- The minimized job `convertConfig` writes back: steps replaced by the
single `task <jobName>` run step; the source's struct literal omits
`Environment`, which therefore zeroes to nil. -/
def newJobOf (jobName : String) (job : Job) : Job :=
  { Executor := job.Executor, Docker := job.Docker, Machine := job.Machine,
    Parameters := job.Parameters,
    Steps := [YVal.map [("run", YVal.str ("task " ++ jobName))]],
    Environment := YVal.null }

/-- `convertConfig` (`part_000`): the conversion engine's entry point. -/
def convertConfig (config : CircleCIConfig) : CircleCIConfig × Taskfile :=
  let patterns := analyzePatterns config
  let commandTasks := convertCommandsToTasks config.Commands
  let tasks0 := commandTasks.foldl (fun acc p => insertA acc p.1 p.2) []
  let pair :=
    config.Jobs.foldl
      (fun (acc : List (String × Job) × List (String × Task)) p =>
        (insertA acc.1 p.1 (newJobOf p.1 p.2),
         insertA acc.2 p.1 (convertJobToTask p.1 p.2 patterns config.Commands)))
      ([], tasks0)
  let tasks2 := patterns.foldl (fun acc p => insertA acc p.1 p.2) pair.2
  let tasks3 := addLocalDevTasks tasks2
  ({ Version := config.Version, Jobs := pair.1, Commands := none,
     Workflows := config.Workflows, Executors := config.Executors },
   { Version := "3", Tasks := tasks3, Env := addLocalEnvDefaultsEnv config })

/-- The multiset of normalized plain-command texts over job steps only —
what `countsOfConfig` actually counts (proof-side characterization). -/
def jobOccurrences (config : CircleCIConfig) : List String :=
  config.Jobs.flatMap
    (fun p => p.2.Steps.filterMap
      (fun step =>
        let cmd := extractCommand step
        if cmd ≠ "" then some (normalizeCommand cmd) else none))

/-- Spec-side definition, for refinement comparison only, following the
spec's words: the multiset of normalized plain-command texts "across the
union of job steps and reusable-command steps". -/
def specUnionOccurrences (config : CircleCIConfig) : List String :=
  jobOccurrences config ++
    (match config.Commands with
     | none => []
     | some cs =>
       cs.flatMap
         (fun p => p.2.Steps.filterMap
           (fun step =>
             let cmd := extractCommand step
             if cmd ≠ "" then some (normalizeCommand cmd) else none)))

/-- No two distinct normalized commands that are counted at least twice
derive the same generated task name. -/
def NoCollision (config : CircleCIConfig) : Prop :=
  ∀ p ∈ countsOfConfig config, ∀ q ∈ countsOfConfig config,
    2 ≤ p.2 → 2 ≤ q.2 → generateTaskName p.1 = generateTaskName q.1 → p.1 = q.1

/-- Distinctness of the keys of an association list (Go maps have unique
keys). -/
def nodupKeys {α : Type} (l : List (String × α)) : Prop := (keysA l).Nodup

/-- Left-biased choice on options (for lookup-precedence statements). -/
def oOr {α : Type} (x y : Option α) : Option α :=
  match x with
  | some v => some v
  | none => y

/-- The lookup function of the three fixed local-development tasks, in
their override precedence (the last write wins). -/
def lookupLocalDev (name : String) : Option Task :=
  if name = "ci-local" then some ciLocalTask
  else if name = "setup-local" then some setupLocalTask
  else if name = "clean" then some cleanTask
  else none

/-- A string built from well-formed parameter markers: before each marker
a text piece, after the last marker a trailing piece;
`flattenSegs [(t0, n1), (t1, n2)] t = t0 ++ marker n1 ++ t1 ++ marker n2 ++ t`. -/
def flattenSegs : List (List Char × List Char) → List Char → List Char
  | [], t => t
  | (t0, n) :: rest, t => t0 ++ patOpen ++ n ++ patClose ++ flattenSegs rest t

/-- The same string with each marker replaced by the task-runner variable
form of its upper-cased name. -/
def replSegs : List (List Char × List Char) → List Char → List Char
  | [], t => t
  | (t0, n) :: rest, t => t0 ++ replOpen ++ n.map goToUpperChar ++ replClose ++ replSegs rest t

/-- Texts and names free of angle brackets: no marker opener or closer can
occur inside them or straddle their boundaries. -/
def cleanText (l : List Char) : Prop := '<' ∉ l ∧ '>' ∉ l

/-! Concrete configurations exercising the conversion. -/

/-- A `run` step with an inline command string. -/
def runStep (s : String) : YVal := YVal.map [("run", YVal.str s)]

/-- A job with the given steps and all other fields zero. -/
def mkJob (steps : List YVal) : Job :=
  { Executor := YVal.null, Docker := [], Machine := YVal.null,
    Steps := steps, Environment := YVal.null, Parameters := none }

/-- A configuration with the given jobs and reusable commands. -/
def mkConfig (jobs : List (String × Job))
    (cmds : Option (List (String × Command))) : CircleCIConfig :=
  { Version := "2.1", Jobs := jobs, Commands := cmds,
    Workflows := YVal.null, Executors := YVal.null }

/-- A duplicated plain command inside one job. -/
def cfgW1 : CircleCIConfig :=
  mkConfig [("a", mkJob [runStep "echo hi", runStep "echo hi"])] none

/-- A reusable command whose steps repeat a plain command twice while no
job mentions it. -/
def cexC1 : CircleCIConfig :=
  mkConfig []
    (some [("c", { Description := "", Parameters := none,
                   Steps := [runStep "echo hi", runStep "echo hi"] })])

/-- The empty configuration. -/
def cfgW3 : CircleCIConfig := mkConfig [] none

/-- The reusable command of the spec's worked scenario: parameter `target`
defaulting to `production`. -/
def deployCmd6 : Command :=
  { Description := "",
    Parameters := some [("target", YVal.map [("default", YVal.str "production")])],
    Steps := [runStep "echo << parameters.target >>"] }

/-- The worked scenario: a job invoking `deploy` with `target: staging`. -/
def cfg6C : CircleCIConfig :=
  mkConfig [("build", mkJob [YVal.map [("deploy", YVal.map [("target", YVal.str "staging")])]])]
    (some [("deploy", deployCmd6)])

/-- A job carrying a non-nil `environment` mapping. -/
def jobEnv7 : Job :=
  { Executor := YVal.null, Docker := [], Machine := YVal.null,
    Steps := [runStep "echo hi"],
    Environment := YVal.map [("FOO", YVal.str "bar")], Parameters := none }

/-- A configuration with one environment-carrying job. -/
def cex7 : CircleCIConfig := mkConfig [("j", jobEnv7)] none

/-- A job and a reusable command sharing the name `x`. -/
def cex8 : CircleCIConfig :=
  mkConfig [("x", mkJob [runStep "echo b"])]
    (some [("x", { Description := "", Parameters := none, Steps := [runStep "echo a"] })])

/-- Two jobs whose duplicated commands derive the same task name
(`npm-install`): `--force` is dropped as a flag word. -/
def cfg9a : CircleCIConfig :=
  mkConfig
    [("a", mkJob [runStep "npm install", runStep "npm install"]),
     ("b", mkJob [runStep "npm install --force", runStep "npm install --force"])]
    none

/-- The same two jobs enumerated in the other order. -/
def cfg9b : CircleCIConfig :=
  mkConfig
    [("b", mkJob [runStep "npm install --force", runStep "npm install --force"]),
     ("a", mkJob [runStep "npm install", runStep "npm install"])]
    none

/-- Two collision-free jobs sharing one duplicated command. -/
def cfgW9a : CircleCIConfig :=
  mkConfig [("a", mkJob [runStep "echo hi"]), ("b", mkJob [runStep "echo hi"])] none

/-- The same collision-free jobs enumerated in the other order. -/
def cfgW9b : CircleCIConfig :=
  mkConfig [("b", mkJob [runStep "echo hi"]), ("a", mkJob [runStep "echo hi"])] none

/-- A marker-free text piece for the rewriting scenario. -/
def wq5 : List Char := ['e', 'c', 'h', 'o', ' ']

/-- A bracket-free parameter name for the rewriting scenario. -/
def wn5 : List Char := ['t', 'a', 'r', 'g', 'e', 't']

/-! Association-list lemmas: Go map reads and writes. -/

theorem lookupA_insertA_self {α : Type} (l : List (String × α)) (k : String) (v : α) :
    lookupA k (insertA l k v) = some v := by
  induction l with
  | nil => simp [insertA, lookupA]
  | cons p rest ih =>
    obtain ⟨k', v'⟩ := p
    by_cases h : k' = k
    · subst h
      simp [insertA, lookupA]
    · simp [insertA, lookupA, h, ih]

theorem lookupA_insertA_ne {α : Type} (l : List (String × α)) (k k' : String) (v : α)
    (h : k' ≠ k) : lookupA k (insertA l k' v) = lookupA k l := by
  induction l with
  | nil => simp [insertA, lookupA, h]
  | cons p rest ih =>
    obtain ⟨a, b⟩ := p
    by_cases ha : a = k'
    · subst ha
      have hak : a ≠ k := fun hh => h (hh ▸ rfl)
      simp [insertA, lookupA, hak, h]
    · by_cases hk : a = k
      · subst hk
        simp [insertA, lookupA, ha]
      · simp [insertA, lookupA, ha, hk, ih]

theorem lookupA_isSome_insertA {α : Type} (l : List (String × α)) (k k' : String) (v : α)
    (h : (lookupA k l).isSome) : (lookupA k (insertA l k' v)).isSome := by
  by_cases hk : k' = k
  · subst hk
    rw [lookupA_insertA_self]
    rfl
  · rw [lookupA_insertA_ne _ _ _ _ hk]
    exact h

theorem mem_insertA {α : Type} {l : List (String × α)} {k : String} {v : α}
    {q : String × α} (h : q ∈ insertA l k v) : q = (k, v) ∨ q ∈ l := by
  induction l with
  | nil =>
    simp [insertA] at h
    exact Or.inl h
  | cons p rest ih =>
    obtain ⟨a, b⟩ := p
    by_cases ha : a = k
    · subst ha
      simp only [insertA, if_pos rfl] at h
      rcases List.mem_cons.mp h with h | h
      · exact Or.inl h
      · exact Or.inr (List.mem_cons_of_mem _ h)
    · simp only [insertA, if_neg ha] at h
      rcases List.mem_cons.mp h with h | h
      · exact Or.inr (h ▸ List.mem_cons_self _ _)
      · rcases ih h with h' | h'
        · exact Or.inl h'
        · exact Or.inr (List.mem_cons_of_mem _ h')

theorem lookupA_mem {α : Type} {l : List (String × α)} {k : String} {v : α}
    (h : lookupA k l = some v) : (k, v) ∈ l := by
  induction l with
  | nil => simp [lookupA] at h
  | cons p rest ih =>
    obtain ⟨a, b⟩ := p
    by_cases ha : a = k
    · subst ha
      have hb : b = v := by simpa [lookupA] using h
      subst hb
      exact List.mem_cons_self _ _
    · simp only [lookupA, if_neg ha] at h
      exact List.mem_cons_of_mem _ (ih h)

theorem lookupA_eq_none_iff {α : Type} (l : List (String × α)) (k : String) :
    lookupA k l = none ↔ k ∉ keysA l := by
  induction l with
  | nil => simp [lookupA, keysA]
  | cons p rest ih =>
    obtain ⟨a, b⟩ := p
    by_cases ha : a = k
    · subst ha
      simp [lookupA, keysA]
    · simp [lookupA, keysA, ha, ih, Ne.symm ha]

theorem mem_lookupA_of_nodup {α : Type} {l : List (String × α)} {k : String} {v : α}
    (hnd : nodupKeys l) (h : (k, v) ∈ l) : lookupA k l = some v := by
  induction l with
  | nil => cases h
  | cons p rest ih =>
    obtain ⟨a, b⟩ := p
    have hnd' : (keysA rest).Nodup := (List.nodup_cons.mp hnd).2
    rcases List.mem_cons.mp h with h' | h'
    · injection h' with h1 h2
      subst h1
      subst h2
      simp [lookupA]
    · have hkk : k ∈ keysA rest := List.mem_map_of_mem Prod.fst h'
      have hak : a ≠ k := by
        intro hh
        subst hh
        exact (List.nodup_cons.mp hnd).1 hkk
      simp only [lookupA, if_neg hak]
      exact ih hnd' h'

theorem mem_keysA_insertA {α : Type} (l : List (String × α)) (k a : String) (v : α) :
    a ∈ keysA (insertA l k v) ↔ a = k ∨ a ∈ keysA l := by
  induction l with
  | nil => simp [insertA, keysA]
  | cons p rest ih =>
    obtain ⟨k', v'⟩ := p
    by_cases h : k' = k
    · subst h
      simp [insertA, keysA]
    · simp only [insertA, if_neg h, keysA, List.map_cons, List.mem_cons]
      rw [show (List.map Prod.fst (insertA rest k v) : List String) = keysA (insertA rest k v) from rfl]
      rw [ih]
      tauto

theorem nodupKeys_insertA {α : Type} {l : List (String × α)} (k : String) (v : α)
    (hnd : nodupKeys l) : nodupKeys (insertA l k v) := by
  induction l with
  | nil => simp [insertA, nodupKeys, keysA]
  | cons p rest ih =>
    obtain ⟨k', v'⟩ := p
    have h1 : k' ∉ keysA rest := (List.nodup_cons.mp hnd).1
    have h2 : (keysA rest).Nodup := (List.nodup_cons.mp hnd).2
    by_cases h : k' = k
    · subst h
      simpa [insertA, nodupKeys, keysA] using hnd
    · have : nodupKeys (insertA rest k v) := ih h2
      simp only [insertA, if_neg h, nodupKeys, keysA, List.map_cons, List.nodup_cons]
      refine ⟨?_, this⟩
      intro hmem
      rcases (mem_keysA_insertA rest k k' v).mp hmem with h' | h'
      · exact h h'
      · exact h1 h'

theorem lookupA_foldl_insertA {α β : Type} (f : String → α → β) (l : List (String × α))
    (hnd : nodupKeys l) (acc : List (String × β)) (k : String) :
    lookupA k (l.foldl (fun a p => insertA a p.1 (f p.1 p.2)) acc) =
      oOr ((lookupA k l).map (fun v => f k v)) (lookupA k acc) := by
  induction l generalizing acc with
  | nil => simp [lookupA, oOr]
  | cons p rest ih =>
    obtain ⟨k0, v0⟩ := p
    have h1 : k0 ∉ keysA rest := (List.nodup_cons.mp hnd).1
    have hnd' : nodupKeys rest := (List.nodup_cons.mp hnd).2
    simp only [List.foldl_cons]
    rw [ih hnd']
    by_cases h : k0 = k
    · subst h
      have hnone : lookupA k0 rest = none := (lookupA_eq_none_iff rest k0).mpr h1
      rw [hnone, lookupA_insertA_self]
      simp [lookupA, oOr]
    · rw [lookupA_insertA_ne _ _ _ _ h]
      simp [lookupA, h]

theorem lookupA_isSome_foldl {α β : Type} (f : String → α → β) (l : List (String × α))
    (acc : List (String × β)) (k : String) (h : (lookupA k acc).isSome) :
    (lookupA k (l.foldl (fun a p => insertA a p.1 (f p.1 p.2)) acc)).isSome := by
  induction l generalizing acc with
  | nil => exact h
  | cons p rest ih =>
    simp only [List.foldl_cons]
    exact ih _ (lookupA_isSome_insertA _ _ _ _ h)

theorem lookupA_isSome_foldl_of_mem {α β : Type} (f : String → α → β) (l : List (String × α))
    (acc : List (String × β)) (k : String) (v : α) (h : (k, v) ∈ l) :
    (lookupA k (l.foldl (fun a p => insertA a p.1 (f p.1 p.2)) acc)).isSome := by
  induction l generalizing acc with
  | nil => cases h
  | cons p rest ih =>
    simp only [List.foldl_cons]
    rcases List.mem_cons.mp h with h' | h'
    · subst h'
      apply lookupA_isSome_foldl
      rw [lookupA_insertA_self]
      rfl
    · exact ih _ h'

theorem mem_foldl_insertA {α β : Type} (f : String → α → β) (l : List (String × α))
    (acc : List (String × β)) (q : String × β)
    (h : q ∈ l.foldl (fun a p => insertA a p.1 (f p.1 p.2)) acc) :
    (∃ p ∈ l, q = (p.1, f p.1 p.2)) ∨ q ∈ acc := by
  induction l generalizing acc with
  | nil => exact Or.inr h
  | cons p rest ih =>
    simp only [List.foldl_cons] at h
    rcases ih _ h with h' | h'
    · rcases h' with ⟨p', hp', hq⟩
      exact Or.inl ⟨p', List.mem_cons_of_mem _ hp', hq⟩
    · rcases mem_insertA h' with h'' | h''
      · exact Or.inl ⟨p, List.mem_cons_self _ _, h''⟩
      · exact Or.inr h''

theorem nodupKeys_foldl_insertA {α β : Type} (f : String → α → β) (l : List (String × α))
    (acc : List (String × β)) (hnd : nodupKeys acc) :
    nodupKeys (l.foldl (fun a p => insertA a p.1 (f p.1 p.2)) acc) := by
  induction l generalizing acc with
  | nil => exact hnd
  | cons p rest ih =>
    simp only [List.foldl_cons]
    exact ih _ (nodupKeys_insertA _ _ hnd)

theorem foldl_prod_split {α β γ : Type} (f : β → α → β) (g : γ → α → γ) (l : List α)
    (a : β) (b : γ) :
    l.foldl (fun acc p => (f acc.1 p, g acc.2 p)) (a, b) = (l.foldl f a, l.foldl g b) := by
  induction l generalizing a b with
  | nil => rfl
  | cons x rest ih => simp only [List.foldl_cons]; exact ih _ _

theorem find?_eq_some_unique {α : Type} (l : List α) (p : α → Bool) (x : α)
    (hx : x ∈ l) (hpx : p x = true) (hu : ∀ y ∈ l, p y = true → y = x) :
    l.find? p = some x := by
  induction l with
  | nil => cases hx
  | cons a rest ih =>
    by_cases h : p a = true
    · have hax : a = x := hu a (List.mem_cons_self _ _) h
      subst hax
      exact List.find?_cons_of_pos _ h
    · rw [List.find?_cons_of_neg _ (by simpa using h)]
      have hx' : x ∈ rest := by
        rcases List.mem_cons.mp hx with h' | h'
        · exact absurd (h' ▸ hpx) h
        · exact h'
      exact ih hx' (fun y hy hpy => hu y (List.mem_cons_of_mem _ hy) hpy)

/-! Lemmas about `goFields`, `goTrimSpace` and `normalizeCommand`. -/

theorem takeWhile_append_of_all {p : Char → Bool} {a : List Char} (b : List Char)
    (h : ∀ x ∈ a, p x = true) : (a ++ b).takeWhile p = a ++ b.takeWhile p := by
  induction a with
  | nil => simp
  | cons c cs ih =>
    have hc : p c = true := h c (List.mem_cons_self _ _)
    simp only [List.cons_append, List.takeWhile_cons, hc, if_true]
    rw [ih (fun x hx => h x (List.mem_cons_of_mem _ hx))]

theorem dropWhile_append_of_all {p : Char → Bool} {a : List Char} (b : List Char)
    (h : ∀ x ∈ a, p x = true) : (a ++ b).dropWhile p = b.dropWhile p := by
  induction a with
  | nil => simp
  | cons c cs ih =>
    have hc : p c = true := h c (List.mem_cons_self _ _)
    simp only [List.cons_append, List.dropWhile_cons, hc, if_true]
    exact ih (fun x hx => h x (List.mem_cons_of_mem _ hx))

theorem takeWhile_eq_nil_of_head {p : Char → Bool} {l : List Char}
    (h : ∀ x ∈ l, p x = false) : l.takeWhile p = [] := by
  cases l with
  | nil => rfl
  | cons c cs => simp [List.takeWhile_cons, h c (List.mem_cons_self _ _)]

theorem dropWhile_eq_self_of_head {p : Char → Bool} {l : List Char}
    (h : ∀ x ∈ l, p x = false) : l.dropWhile p = l := by
  cases l with
  | nil => rfl
  | cons c cs => simp [List.dropWhile_cons, h c (List.mem_cons_self _ _)]

theorem dropWhile_head_false {p : Char → Bool} {l : List Char} {d : Char} {ds : List Char}
    (h : l.dropWhile p = d :: ds) : p d = false := by
  induction l with
  | nil => cases h
  | cons c cs ih =>
    by_cases hc : p c = true
    · rw [List.dropWhile_cons, if_pos hc] at h
      exact ih h
    · rw [List.dropWhile_cons, if_neg hc] at h
      cases h
      simpa using hc

theorem map_id_of_eq {f : Char → Char} {l : List Char} (h : ∀ x ∈ l, f x = x) :
    l.map f = l := by
  induction l with
  | nil => rfl
  | cons c cs ih =>
    rw [List.map_cons, h c (List.mem_cons_self _ _),
      ih (fun x hx => h x (List.mem_cons_of_mem _ hx))]

theorem goFieldsFuel_congr : ∀ (f g : Nat) (l : List Char), l.length ≤ f → l.length ≤ g →
    goFieldsFuel f l = goFieldsFuel g l := by
  intro f
  induction f with
  | zero =>
    intro g l hf _
    have hnil : l = [] := List.eq_nil_of_length_eq_zero (Nat.le_zero.mp hf)
    subst hnil
    cases g <;> rfl
  | succ f ih =>
    intro g l hf hg
    cases l with
    | nil => cases g <;> rfl
    | cons c cs =>
      cases g with
      | zero => simp at hg
      | succ g =>
        simp only [List.length_cons] at hf hg
        by_cases hc : goIsSpace c = true
        · simp only [goFieldsFuel, if_pos hc]
          exact ih g cs (by omega) (by omega)
        · simp only [goFieldsFuel, if_neg hc]
          have hlen := List.IsSuffix.length_le
            (List.dropWhile_suffix (l := cs) (p := fun d => !(goIsSpace d)))
          rw [ih g _ (by omega) (by omega)]

/-- Case analysis along the recursion of `goFields`. -/
@[elab_as_elim]
theorem goFields_induct (motive : List Char → Prop)
    (case1 : motive [])
    (case2 : ∀ (c : Char) (cs : List Char), goIsSpace c = true → motive cs → motive (c :: cs))
    (case3 : ∀ (c : Char) (cs : List Char), goIsSpace c = false →
      motive (cs.dropWhile (fun d => !(goIsSpace d))) → motive (c :: cs)) :
    ∀ l, motive l := by
  have H : ∀ (n : Nat) (l : List Char), l.length ≤ n → motive l := by
    intro n
    induction n with
    | zero =>
      intro l hl
      have hnil : l = [] := List.eq_nil_of_length_eq_zero (Nat.le_zero.mp hl)
      subst hnil
      exact case1
    | succ n ih =>
      intro l hl
      cases l with
      | nil => exact case1
      | cons c cs =>
        simp only [List.length_cons] at hl
        by_cases hc : goIsSpace c = true
        · exact case2 c cs hc (ih cs (by omega))
        · have hc' : goIsSpace c = false := by simpa using hc
          have hlen := List.IsSuffix.length_le
            (List.dropWhile_suffix (l := cs) (p := fun d => !(goIsSpace d)))
          exact case3 c cs hc' (ih _ (by omega))
  exact fun l => H l.length l (le_refl _)

theorem goFields_nil : goFields [] = [] := rfl

theorem goFields_cons_space {c : Char} (l : List Char) (h : goIsSpace c = true) :
    goFields (c :: l) = goFields l := by
  show goFieldsFuel (c :: l).length (c :: l) = goFieldsFuel l.length l
  simp only [List.length_cons, goFieldsFuel, if_pos h]

theorem goFields_cons_nonspace {c : Char} (l : List Char) (h : goIsSpace c = false) :
    goFields (c :: l) =
      (c :: l.takeWhile (fun d => !(goIsSpace d))) ::
        goFields (l.dropWhile (fun d => !(goIsSpace d))) := by
  show goFieldsFuel (c :: l).length (c :: l) = _
  have hne : ¬(goIsSpace c = true) := by simp [h]
  simp only [List.length_cons, goFieldsFuel, if_neg hne]
  refine congrArg (fun x => (c :: l.takeWhile (fun d => !(goIsSpace d))) :: x) ?_
  exact goFieldsFuel_congr l.length _ _
    (List.IsSuffix.length_le (List.dropWhile_suffix _)) (le_refl _)

theorem goFields_prepend_spaces {sp : List Char} (l : List Char)
    (h : ∀ c ∈ sp, goIsSpace c = true) : goFields (sp ++ l) = goFields l := by
  induction sp with
  | nil => rfl
  | cons c cs ih =>
    rw [List.cons_append, goFields_cons_space _ (h c (List.mem_cons_self _ _))]
    exact ih (fun x hx => h x (List.mem_cons_of_mem _ hx))

theorem goFields_all_space {l : List Char} (h : ∀ c ∈ l, goIsSpace c = true) :
    goFields l = [] := by
  have h1 := @goFields_prepend_spaces l [] h
  rw [goFields_nil] at h1
  simpa using h1

theorem goFields_append_spaces {sp : List Char} (l : List Char)
    (h : ∀ c ∈ sp, goIsSpace c = true) : goFields (l ++ sp) = goFields l := by
  induction l using goFields_induct with
  | case1 =>
    rw [List.nil_append, goFields_nil]
    exact goFields_all_space h
  | case2 c cs hc ih =>
    rw [List.cons_append, goFields_cons_space _ hc, goFields_cons_space _ hc]
    exact ih
  | case3 c cs hc ih =>
    have hc' : goIsSpace c = false := by simpa using hc
    rcases hdw : cs.dropWhile (fun d => !(goIsSpace d)) with _ | ⟨d, ds⟩
    · have hall : ∀ x ∈ cs, (fun d => !(goIsSpace d)) x = true := by
        intro x hx
        exact List.dropWhile_eq_nil_iff.mp hdw x hx
      have htw : cs.takeWhile (fun d => !(goIsSpace d)) = cs :=
        List.takeWhile_eq_self_iff.mpr hall
      have h1 : (cs ++ sp).takeWhile (fun d => !(goIsSpace d)) = cs := by
        rw [takeWhile_append_of_all sp hall, takeWhile_eq_nil_of_head, List.append_nil]
        intro x hx
        simp [h x hx]
      have h2 : (cs ++ sp).dropWhile (fun d => !(goIsSpace d)) = sp := by
        rw [dropWhile_append_of_all sp hall, dropWhile_eq_self_of_head]
        intro x hx
        simp [h x hx]
      have hL : goFields ((c :: cs) ++ sp) = [c :: cs] := by
        rw [List.cons_append, goFields_cons_nonspace _ hc', h1, h2, goFields_all_space h]
      have hR : goFields (c :: cs) = [c :: cs] := by
        rw [goFields_cons_nonspace _ hc', htw, hdw, goFields_nil]
      rw [hL, hR]
    · have hsplit := List.takeWhile_append_dropWhile (fun d => !(goIsSpace d)) cs
      have hd : (fun d => !(goIsSpace d)) d = false := dropWhile_head_false hdw
      have htwall : ∀ x ∈ cs.takeWhile (fun d => !(goIsSpace d)),
          (fun d => !(goIsSpace d)) x = true := by
        intro x hx
        have hx2 := List.mem_takeWhile_imp hx
        exact hx2
      have h1 : (cs ++ sp).takeWhile (fun d => !(goIsSpace d)) =
          cs.takeWhile (fun d => !(goIsSpace d)) := by
        conv_lhs => rw [← hsplit, hdw]
        rw [List.append_assoc, takeWhile_append_of_all _ htwall]
        rw [List.cons_append, List.takeWhile_cons_of_neg, List.append_nil]
        simpa using hd
      have h2 : (cs ++ sp).dropWhile (fun d => !(goIsSpace d)) =
          cs.dropWhile (fun d => !(goIsSpace d)) ++ sp := by
        conv_lhs => rw [← hsplit, hdw]
        rw [List.append_assoc, dropWhile_append_of_all _ htwall]
        rw [List.cons_append, List.dropWhile_cons_of_neg, hdw, List.cons_append]
        simpa using hd
      rw [List.cons_append, goFields_cons_nonspace _ hc', goFields_cons_nonspace _ hc',
        h1, h2, ih]

theorem nlChar_space (c : Char) :
    goIsSpace (if c = '\n' then ' ' else c) = goIsSpace c := by
  by_cases h : c = '\n'
  · subst h
    simp
    decide
  · simp [h]

theorem nlChar_nonspace {c : Char} (h : goIsSpace c = false) :
    (if c = '\n' then ' ' else c) = c := by
  by_cases hc : c = '\n'
  · subst hc
    have : goIsSpace '\n' = true := by decide
    rw [this] at h
    cases h
  · simp [hc]

theorem goFields_map_nl (l : List Char) :
    goFields (l.map (fun c => if c = '\n' then ' ' else c)) = goFields l := by
  induction l using goFields_induct with
  | case1 => rfl
  | case2 c cs hc ih =>
    rw [List.map_cons, goFields_cons_space _ (by rw [nlChar_space]; exact hc),
      goFields_cons_space _ hc]
    exact ih
  | case3 c cs hc ih =>
    have hc' : goIsSpace c = false := by simpa using hc
    rw [List.map_cons, nlChar_nonspace hc', goFields_cons_nonspace _ hc',
      goFields_cons_nonspace _ hc']
    have hpcomp : ((fun d => !(goIsSpace d)) ∘ (fun c => if c = '\n' then ' ' else c)) =
        (fun d => !(goIsSpace d)) := by
      funext x
      simp [Function.comp, nlChar_space]
    have h1 : (cs.map (fun c => if c = '\n' then ' ' else c)).takeWhile
        (fun d => !(goIsSpace d)) = cs.takeWhile (fun d => !(goIsSpace d)) := by
      rw [List.takeWhile_map, hpcomp]
      apply map_id_of_eq
      intro x hx
      have hx' := List.mem_takeWhile_imp hx
      exact nlChar_nonspace (by simpa using hx')
    have h2 : (cs.map (fun c => if c = '\n' then ' ' else c)).dropWhile
        (fun d => !(goIsSpace d)) =
        (cs.dropWhile (fun d => !(goIsSpace d))).map (fun c => if c = '\n' then ' ' else c) := by
      rw [List.dropWhile_map, hpcomp]
    rw [h1, h2, ih]

theorem goFields_trim (l : List Char) : goFields (goTrimSpace l) = goFields l := by
  unfold goTrimSpace
  set m := l.dropWhile goIsSpace with hm
  have hstep1 : goFields l = goFields m := by
    conv_lhs => rw [← List.takeWhile_append_dropWhile goIsSpace l]
    exact goFields_prepend_spaces _ (fun x hx => List.mem_takeWhile_imp hx)
  have hsplit : m = (m.reverse.dropWhile goIsSpace).reverse ++
      (m.reverse.takeWhile goIsSpace).reverse := by
    conv_lhs => rw [← List.reverse_reverse m,
      ← List.takeWhile_append_dropWhile goIsSpace m.reverse]
    rw [List.reverse_append]
  have htail : ∀ c ∈ (m.reverse.takeWhile goIsSpace).reverse, goIsSpace c = true := by
    intro c hc
    exact List.mem_takeWhile_imp (List.mem_reverse.mp hc)
  rw [hstep1]
  conv_rhs => rw [hsplit]
  rw [goFields_append_spaces _ htail]

theorem goFields_token_facts (l : List Char) :
    ∀ tok ∈ goFields l, tok ≠ [] ∧ ∀ c ∈ tok, goIsSpace c = false := by
  induction l using goFields_induct with
  | case1 =>
    rw [goFields_nil]
    intro tok h
    cases h
  | case2 c cs hc ih =>
    rw [goFields_cons_space _ hc]
    exact ih
  | case3 c cs hc ih =>
    have hc' : goIsSpace c = false := by simpa using hc
    rw [goFields_cons_nonspace _ hc']
    intro tok htok
    rcases List.mem_cons.mp htok with h | h
    · subst h
      refine ⟨by simp, ?_⟩
      intro x hx
      rcases List.mem_cons.mp hx with h' | h'
      · exact h' ▸ hc'
      · simpa using List.mem_takeWhile_imp h'
    · exact ih tok h

theorem goFields_single {t : List Char} (hne : t ≠ [])
    (hsf : ∀ c ∈ t, goIsSpace c = false) : goFields t = [t] := by
  cases t with
  | nil => exact absurd rfl hne
  | cons c cs =>
    rw [goFields_cons_nonspace _ (hsf c (List.mem_cons_self _ _))]
    have h1 : cs.takeWhile (fun d => !(goIsSpace d)) = cs := by
      apply List.takeWhile_eq_self_iff.mpr
      intro x hx
      simp [hsf x (List.mem_cons_of_mem _ hx)]
    have h2 : cs.dropWhile (fun d => !(goIsSpace d)) = [] := by
      apply List.dropWhile_eq_nil_iff.mpr
      intro x hx
      simp [hsf x (List.mem_cons_of_mem _ hx)]
    rw [h1, h2, goFields_nil]

theorem goFields_join (toks : List (List Char))
    (h : ∀ tok ∈ toks, tok ≠ [] ∧ ∀ c ∈ tok, goIsSpace c = false) :
    goFields (goJoin [' '] toks) = toks := by
  induction toks with
  | nil => exact goFields_nil
  | cons t rest ih =>
    rcases h t (List.mem_cons_self _ _) with ⟨hne, hsf⟩
    cases rest with
    | nil => exact goFields_single hne hsf
    | cons u us =>
      show goFields (t ++ [' '] ++ goJoin [' '] (u :: us)) = t :: u :: us
      rcases t with _ | ⟨c, cs⟩
      · exact absurd rfl hne
      · have hcs : ∀ x ∈ cs, goIsSpace x = false :=
          fun x hx => hsf x (List.mem_cons_of_mem _ hx)
        rw [List.append_assoc, List.cons_append,
          goFields_cons_nonspace _ (hsf c (List.mem_cons_self _ _))]
        have h1 : (cs ++ ([' '] ++ goJoin [' '] (u :: us))).takeWhile
            (fun d => !(goIsSpace d)) = cs := by
          rw [takeWhile_append_of_all _ (fun x hx => by simp [hcs x hx])]
          rw [List.cons_append, List.nil_append, List.takeWhile_cons_of_neg, List.append_nil]
          decide
        have h2 : (cs ++ ([' '] ++ goJoin [' '] (u :: us))).dropWhile
            (fun d => !(goIsSpace d)) = ' ' :: goJoin [' '] (u :: us) := by
          rw [dropWhile_append_of_all _ (fun x hx => by simp [hcs x hx])]
          rw [List.cons_append, List.nil_append, List.dropWhile_cons_of_neg]
          decide
        rw [h1, h2, goFields_cons_space _ (by decide)]
        rw [ih (fun tok htok => h tok (List.mem_cons_of_mem _ htok))]

theorem normalizeCommand_eq (s : String) :
    normalizeCommand s = String.mk (goJoin [' '] (goFields s.data)) := by
  show String.mk (goJoin [' ']
      (goFields ((goTrimSpace s.data).map (fun c => if c = '\n' then ' ' else c)))) = _
  rw [goFields_map_nl, goFields_trim]

theorem normalizeCommand_idem (s : String) :
    normalizeCommand (normalizeCommand s) = normalizeCommand s := by
  conv_lhs => rw [normalizeCommand_eq s, normalizeCommand_eq]
  rw [show (String.mk (goJoin [' '] (goFields s.data))).data =
      goJoin [' '] (goFields s.data) from rfl]
  rw [goFields_join _ (goFields_token_facts s.data), ← normalizeCommand_eq]

theorem normalizeCommand_congr {s t : String} (h : goFields s.data = goFields t.data) :
    normalizeCommand s = normalizeCommand t := by
  rw [normalizeCommand_eq, normalizeCommand_eq, h]

/-! Lemmas about `indexOfSub` and the parameter-marker rewrite loop. -/

theorem patOpen_eq_literal : patOpen = "<< parameters.".data := by decide

theorem patClose_eq_literal : patClose = " >>".data := by decide

theorem replOpen_eq_literal : replOpen = "\x7b\x7b.".data := by decide

theorem replClose_eq_literal : replClose = "\x7d\x7d".data := by decide

theorem isPrefixL_append_self (p l : List Char) : isPrefixL p (p ++ l) = true := by
  induction p with
  | nil => rfl
  | cons c cs ih => simp [isPrefixL, ih]

theorem indexOfSub_of_split (pat a b : List Char) (hne : pat ≠ [])
    (hno : ∀ a1 a2, a = a1 ++ a2 → a2 ≠ [] → isPrefixL pat (a2 ++ (pat ++ b)) = false) :
    indexOfSub pat (a ++ (pat ++ b)) = some a.length := by
  induction a with
  | nil =>
    rw [List.nil_append]
    cases hp : pat with
    | nil => exact absurd hp hne
    | cons p ps =>
      have hpre : isPrefixL pat (pat ++ b) = true := isPrefixL_append_self pat b
      rw [hp, List.cons_append] at hpre
      simp [indexOfSub, hpre]
  | cons c a' ih =>
    have hfalse : isPrefixL pat ((c :: a') ++ (pat ++ b)) = false :=
      hno [] (c :: a') rfl (by simp)
    rw [List.cons_append] at hfalse
    rw [List.cons_append]
    simp only [indexOfSub, hfalse]
    have ih' := ih (fun a1 a2 hsplit hne2 => hno (c :: a1) a2 (by rw [hsplit]; rfl) hne2)
    rw [ih']
    simp

theorem isPrefixL_patOpen_false {x : Char} (xs : List Char) (hx : x ≠ '<') :
    isPrefixL patOpen (x :: xs) = false := by
  have : ('<' == x) = false := beq_eq_false_iff_ne.mpr (Ne.symm hx)
  simp [patOpen, isPrefixL, this]

theorem isPrefixL_patClose_one (x : Char) (b : List Char) :
    isPrefixL patClose (x :: (patClose ++ b)) = false := by
  simp [patClose, isPrefixL]

theorem isPrefixL_patClose_two {y : Char} (x : Char) (rest : List Char) (hy : y ≠ '>') :
    isPrefixL patClose (x :: y :: rest) = false := by
  have : ('>' == y) = false := beq_eq_false_iff_ne.mpr (Ne.symm hy)
  simp [patClose, isPrefixL, this]

theorem patOpen_no_occurrence {a : List Char} (b' : List Char) (ha : '<' ∉ a) :
    ∀ a1 a2, a = a1 ++ a2 → a2 ≠ [] → isPrefixL patOpen (a2 ++ b') = false := by
  intro a1 a2 hsplit hne
  cases a2 with
  | nil => exact absurd rfl hne
  | cons x a2' =>
    have hx : x ∈ a := by
      rw [hsplit]
      exact List.mem_append.mpr (Or.inr (List.mem_cons_self _ _))
    have hxne : x ≠ '<' := fun hh => ha (hh ▸ hx)
    rw [List.cons_append]
    exact isPrefixL_patOpen_false _ hxne

theorem no_gt_patOpen : ∀ c ∈ patOpen, c ≠ '>' := by decide

theorem patClose_no_occurrence {n : List Char} (b : List Char) (hn : '>' ∉ n) :
    ∀ a1 a2, patOpen ++ n = a1 ++ a2 → a2 ≠ [] →
      isPrefixL patClose (a2 ++ (patClose ++ b)) = false := by
  intro a1 a2 hsplit hne
  cases a2 with
  | nil => exact absurd rfl hne
  | cons x a2' =>
    cases a2' with
    | nil =>
      rw [List.cons_append, List.nil_append]
      exact isPrefixL_patClose_one x b
    | cons y a2'' =>
      have hy : y ∈ patOpen ++ n := by
        rw [hsplit]
        exact List.mem_append.mpr (Or.inr (List.mem_cons_of_mem _ (List.mem_cons_self _ _)))
      have hyne : y ≠ '>' := by
        rcases List.mem_append.mp hy with h' | h'
        · exact no_gt_patOpen y h'
        · exact fun hh => hn (hh ▸ h')
      rw [List.cons_append, List.cons_append]
      exact isPrefixL_patClose_two x _ hyne

theorem indexOfSub_patOpen_none {l : List Char} (h : '<' ∉ l) :
    indexOfSub patOpen l = none := by
  induction l with
  | nil => rfl
  | cons c cs ih =>
    have hc : c ≠ '<' := fun hh => h (hh ▸ List.mem_cons_self _ _)
    have hpre : isPrefixL patOpen (c :: cs) = false := isPrefixL_patOpen_false _ hc
    simp [indexOfSub, hpre, ih (fun hm => h (List.mem_cons_of_mem _ hm))]

theorem convertParamFuel_of_none {l : List Char} (h : indexOfSub patOpen l = none)
    (fuel : Nat) : convertParamFuel fuel l = l := by
  cases fuel with
  | zero => rfl
  | succ f => simp [convertParamFuel, h]

theorem convertParamFuel_of_noclose {l : List Char} {start : Nat}
    (h : indexOfSub patOpen l = some start)
    (h2 : indexOfSub patClose (l.drop start) = none) (fuel : Nat) :
    convertParamFuel fuel l = l := by
  cases fuel with
  | zero => rfl
  | succ f => simp [convertParamFuel, h, h2]

theorem toNat_ofNat_valid {n : Nat} (h : n.isValidChar) : (Char.ofNat n).toNat = n := by
  unfold Char.ofNat
  rw [dif_pos h]
  rfl

theorem goToUpperChar_ne_lt {c : Char} (h : c ≠ '<') : goToUpperChar c ≠ '<' := by
  unfold goToUpperChar
  by_cases hc : 'a' ≤ c ∧ c ≤ 'z'
  · rw [if_pos hc]
    intro hh
    have h2 : 97 ≤ c.toNat := hc.1
    have h3 : c.toNat ≤ 122 := hc.2
    have hv : (c.toNat - 32).isValidChar := Or.inl (by omega)
    have h1 : c.toNat - 32 = 60 := by
      have := congrArg Char.toNat hh
      rwa [toNat_ofNat_valid hv] at this
    omega
  · rw [if_neg hc]
    exact h

theorem convertParamFuel_step (fuel : Nat) (q n rest : List Char)
    (hq : '<' ∉ q) (hn2 : '>' ∉ n) :
    convertParamFuel (fuel + 1) (q ++ (patOpen ++ (n ++ (patClose ++ rest)))) =
      convertParamFuel fuel (q ++ (replOpen ++ (n.map goToUpperChar ++ (replClose ++ rest)))) := by
  set l := q ++ (patOpen ++ (n ++ (patClose ++ rest))) with hl
  have h1 : indexOfSub patOpen l = some q.length :=
    indexOfSub_of_split patOpen q (n ++ (patClose ++ rest)) (by simp [patOpen])
      (patOpen_no_occurrence _ hq)
  have hdrop : l.drop q.length = (patOpen ++ n) ++ (patClose ++ rest) := by
    rw [hl, List.drop_left, ← List.append_assoc]
  have h2 : indexOfSub patClose (l.drop q.length) = some (patOpen ++ n).length := by
    rw [hdrop]
    exact indexOfSub_of_split patClose (patOpen ++ n) rest (by simp [patClose])
      (patClose_no_occurrence _ hn2)
  have hpatlen : patOpen.length = 14 := by decide
  have hassoc : l = ((q ++ patOpen) ++ n) ++ (patClose ++ rest) := by
    rw [hl]
    simp [List.append_assoc]
  have htake : l.take ((patOpen ++ n).length + q.length) = (q ++ patOpen) ++ n := by
    rw [hassoc]
    apply List.take_left'
    simp only [List.length_append, hpatlen]
    omega
  have hname : ((l.take ((patOpen ++ n).length + q.length)).drop (q.length + 14)) = n := by
    rw [htake]
    apply List.drop_left'
    simp only [List.length_append, hpatlen]
  have htake2 : l.take q.length = q := by
    rw [hl]
    exact List.take_left' rfl
  have hdrop2 : l.drop ((patOpen ++ n).length + q.length + 3) = rest := by
    have hl2 : l = (((q ++ patOpen) ++ n) ++ patClose) ++ rest := by
      rw [hl]
      simp [List.append_assoc]
    rw [hl2]
    apply List.drop_left'
    have hcl : patClose.length = 3 := by decide
    simp only [List.length_append, hpatlen, hcl]
    omega
  simp only [convertParamFuel, h1, h2]
  rw [hname, htake2, hdrop2]
  simp [List.append_assoc]

theorem cleanText_append {a b : List Char} (ha : cleanText a) (hb : cleanText b) :
    cleanText (a ++ b) := by
  constructor
  · intro h
    rcases List.mem_append.mp h with h' | h'
    · exact ha.1 h'
    · exact hb.1 h'
  · intro h
    rcases List.mem_append.mp h with h' | h'
    · exact ha.2 h'
    · exact hb.2 h'

theorem cleanText_replOpen : cleanText replOpen := by
  constructor <;> decide

theorem cleanText_replClose : cleanText replClose := by
  constructor <;> decide

theorem goToUpperChar_ne_gt {c : Char} (h : c ≠ '>') : goToUpperChar c ≠ '>' := by
  unfold goToUpperChar
  by_cases hc : 'a' ≤ c ∧ c ≤ 'z'
  · rw [if_pos hc]
    intro hh
    have h2 : 97 ≤ c.toNat := hc.1
    have h3 : c.toNat ≤ 122 := hc.2
    have hv : (c.toNat - 32).isValidChar := Or.inl (by omega)
    have h1 : c.toNat - 32 = 62 := by
      have := congrArg Char.toNat hh
      rwa [toNat_ofNat_valid hv] at this
    omega
  · rw [if_neg hc]
    exact h

theorem cleanText_map_upper {n : List Char} (hn : cleanText n) :
    cleanText (n.map goToUpperChar) := by
  constructor
  · intro h
    rcases List.mem_map.mp h with ⟨c, hc, hup⟩
    exact goToUpperChar_ne_lt (fun hh => hn.1 (hh ▸ hc)) hup
  · intro h
    rcases List.mem_map.mp h with ⟨c, hc, hup⟩
    exact goToUpperChar_ne_gt (fun hh => hn.2 (hh ▸ hc)) hup

theorem convertParamFuel_wellFormed (segs : List (List Char × List Char)) :
    ∀ (q t : List Char) (fuel : Nat), segs.length ≤ fuel →
    (∀ p ∈ segs, cleanText p.1 ∧ cleanText p.2) → cleanText q → cleanText t →
    convertParamFuel fuel (q ++ flattenSegs segs t) = q ++ replSegs segs t := by
  induction segs with
  | nil =>
    intro q t fuel _ _ hq ht
    show convertParamFuel fuel (q ++ t) = q ++ t
    apply convertParamFuel_of_none
    apply indexOfSub_patOpen_none
    intro h
    rcases List.mem_append.mp h with h' | h'
    · exact hq.1 h'
    · exact ht.1 h'
  | cons seg rest ih =>
    intro q t fuel hfuel hclean hq ht
    obtain ⟨t0, n⟩ := seg
    obtain ⟨ht0, hn⟩ := hclean (t0, n) (List.mem_cons_self _ _)
    cases fuel with
    | zero => simp at hfuel
    | succ f =>
      have hshape : q ++ flattenSegs ((t0, n) :: rest) t =
          (q ++ t0) ++ (patOpen ++ (n ++ (patClose ++ flattenSegs rest t))) := by
        show q ++ (t0 ++ patOpen ++ n ++ patClose ++ flattenSegs rest t) = _
        simp [List.append_assoc]
      rw [hshape]
      rw [convertParamFuel_step f (q ++ t0) n (flattenSegs rest t)
        (fun h => (cleanText_append hq ht0).1 h) (fun h => hn.2 h)]
      have hq' : cleanText ((q ++ t0) ++ (replOpen ++ n.map goToUpperChar ++ replClose)) := by
        apply cleanText_append (cleanText_append hq ht0)
        exact cleanText_append (cleanText_append cleanText_replOpen (cleanText_map_upper hn))
          cleanText_replClose
      have hrw : (q ++ t0) ++ (replOpen ++ (n.map goToUpperChar ++ (replClose ++ flattenSegs rest t))) =
          ((q ++ t0) ++ (replOpen ++ n.map goToUpperChar ++ replClose)) ++ flattenSegs rest t := by
        simp [List.append_assoc]
      rw [hrw]
      rw [ih _ t f (by simpa using Nat.le_of_succ_le_succ hfuel)
        (fun p hp => hclean p (List.mem_cons_of_mem _ hp)) hq' ht]
      show _ = q ++ (t0 ++ replOpen ++ n.map goToUpperChar ++ replClose ++ replSegs rest t)
      simp [List.append_assoc]

theorem flattenSegs_length (segs : List (List Char × List Char)) (t : List Char) :
    segs.length ≤ (flattenSegs segs t).length := by
  induction segs with
  | nil => simp
  | cons seg rest ih =>
    obtain ⟨t0, n⟩ := seg
    show rest.length + 1 ≤ (t0 ++ patOpen ++ n ++ patClose ++ flattenSegs rest t).length
    simp only [List.length_append]
    have : patClose.length = 3 := by decide
    omega

/-! Lemmas about command counting and pattern synthesis. -/

theorem lookupA_bumpCount_self (l : List (String × Nat)) (k : String) :
    lookupA k (bumpCount l k) = some ((lookupA k l).getD 0 + 1) := by
  induction l with
  | nil => simp [bumpCount, lookupA]
  | cons p rest ih =>
    obtain ⟨k', n⟩ := p
    by_cases h : k' = k
    · subst h
      simp [bumpCount, lookupA]
    · simp [bumpCount, lookupA, h, ih]

theorem lookupA_bumpCount_ne (l : List (String × Nat)) {k kk : String}
    (h : k ≠ kk) : lookupA k (bumpCount l kk) = lookupA k l := by
  induction l with
  | nil => simp [bumpCount, lookupA, Ne.symm h]
  | cons p rest ih =>
    obtain ⟨a, n⟩ := p
    by_cases ha : a = kk
    · subst ha
      simp [bumpCount, lookupA, Ne.symm h]
    · by_cases hk : a = k
      · subst hk
        simp [bumpCount, lookupA, ha]
      · simp [bumpCount, lookupA, ha, hk, ih]

theorem mem_keysA_bumpCount (l : List (String × Nat)) (k a : String) :
    a ∈ keysA (bumpCount l k) ↔ a = k ∨ a ∈ keysA l := by
  induction l with
  | nil => simp [bumpCount, keysA]
  | cons p rest ih =>
    obtain ⟨k', n⟩ := p
    by_cases h : k' = k
    · subst h
      simp [bumpCount, keysA]
    · simp only [bumpCount, if_neg h, keysA, List.map_cons, List.mem_cons]
      rw [show (List.map Prod.fst (bumpCount rest k) : List String) = keysA (bumpCount rest k) from rfl]
      rw [ih]
      tauto

theorem nodupKeys_bumpCount {l : List (String × Nat)} (k : String)
    (hnd : nodupKeys l) : nodupKeys (bumpCount l k) := by
  induction l with
  | nil => simp [bumpCount, nodupKeys, keysA]
  | cons p rest ih =>
    obtain ⟨k', n⟩ := p
    have h1 : k' ∉ keysA rest := (List.nodup_cons.mp hnd).1
    have h2 : (keysA rest).Nodup := (List.nodup_cons.mp hnd).2
    by_cases h : k' = k
    · subst h
      simpa [bumpCount, nodupKeys, keysA] using hnd
    · simp only [bumpCount, if_neg h, nodupKeys, keysA, List.map_cons, List.nodup_cons]
      refine ⟨?_, ih h2⟩
      intro hmem
      rcases (mem_keysA_bumpCount rest k k').mp hmem with h' | h'
      · exact h h'
      · exact h1 h'

theorem lookupA_foldl_bump (occ : List String) :
    ∀ (init : List (String × Nat)) (k : String),
    lookupA k (occ.foldl bumpCount init) =
      match lookupA k init with
      | some n => some (n + occ.count k)
      | none => if occ.count k = 0 then none else some (occ.count k) := by
  induction occ with
  | nil =>
    intro init k
    cases h : lookupA k init <;> simp [h]
  | cons a rest ih =>
    intro init k
    rw [List.foldl_cons, ih]
    by_cases hak : a = k
    · subst hak
      rw [lookupA_bumpCount_self]
      cases h : lookupA a init <;>
        simp [h, List.count_cons, Nat.add_comm, Nat.add_assoc, Nat.add_left_comm]
    · rw [lookupA_bumpCount_ne _ (fun hh => hak hh.symm)]
      have hcount : (a :: rest).count k = rest.count k := by
        simp [List.count_cons, hak]
      cases h : lookupA k init <;> simp [h, hcount]

theorem nodupKeys_foldl_bump (occ : List String) (init : List (String × Nat))
    (hnd : nodupKeys init) : nodupKeys (occ.foldl bumpCount init) := by
  induction occ generalizing init with
  | nil => exact hnd
  | cons a rest ih =>
    rw [List.foldl_cons]
    exact ih _ (nodupKeys_bumpCount _ hnd)

theorem countsOfConfig_eq_foldl (config : CircleCIConfig) :
    countsOfConfig config = (jobOccurrences config).foldl bumpCount [] := by
  unfold countsOfConfig jobOccurrences
  have hsteps : ∀ (steps : List YVal) (acc : List (String × Nat)),
      steps.foldl
        (fun acc2 step =>
          let cmd := extractCommand step
          if cmd ≠ "" then bumpCount acc2 (normalizeCommand cmd) else acc2)
        acc =
      (steps.filterMap
        (fun step =>
          let cmd := extractCommand step
          if cmd ≠ "" then some (normalizeCommand cmd) else none)).foldl bumpCount acc := by
    intro steps
    set F := fun (acc2 : List (String × Nat)) (step : YVal) =>
      let cmd := extractCommand step
      if cmd ≠ "" then bumpCount acc2 (normalizeCommand cmd) else acc2 with hFdef
    set g := fun (step : YVal) =>
      let cmd := extractCommand step
      if cmd ≠ "" then some (normalizeCommand cmd) else none with hgdef
    induction steps with
    | nil => intro acc; rfl
    | cons s rest ih =>
      intro acc
      rcases eq_or_ne (extractCommand s) "" with h | h
      · have hf : F acc s = acc := by simp [hFdef, h]
        have hg : g s = none := by simp [hgdef, h]
        rw [List.foldl_cons, List.filterMap_cons_none hg, hf]
        exact ih acc
      · have hf : F acc s = bumpCount acc (normalizeCommand (extractCommand s)) := by
          simp [hFdef, h]
        have hg : g s = some (normalizeCommand (extractCommand s)) := by simp [hgdef, h]
        rw [List.foldl_cons, List.filterMap_cons_some hg, List.foldl_cons, hf]
        exact ih _
  have hjobs : ∀ (jobs : List (String × Job)) (acc : List (String × Nat)),
      jobs.foldl
        (fun acc p => p.2.Steps.foldl
          (fun acc2 step =>
            let cmd := extractCommand step
            if cmd ≠ "" then bumpCount acc2 (normalizeCommand cmd) else acc2)
          acc)
        acc =
      (jobs.flatMap
        (fun p => p.2.Steps.filterMap
          (fun step =>
            let cmd := extractCommand step
            if cmd ≠ "" then some (normalizeCommand cmd) else none))).foldl bumpCount acc := by
    intro jobs
    induction jobs with
    | nil => intro acc; rfl
    | cons j rest ih =>
      intro acc
      simp only [List.foldl_cons, List.flatMap_cons, List.foldl_append]
      rw [hsteps, ih]
  exact hjobs config.Jobs []

theorem lookupA_countsOfConfig (config : CircleCIConfig) (k : String) :
    lookupA k (countsOfConfig config) =
      if (jobOccurrences config).count k = 0 then none
      else some ((jobOccurrences config).count k) := by
  rw [countsOfConfig_eq_foldl, lookupA_foldl_bump]
  rfl

theorem nodupKeys_countsOfConfig (config : CircleCIConfig) :
    nodupKeys (countsOfConfig config) := by
  rw [countsOfConfig_eq_foldl]
  exact nodupKeys_foldl_bump _ _ (by simp [nodupKeys, keysA])

theorem mem_countsOfConfig_iff (config : CircleCIConfig) (k : String) (v : Nat) :
    (k, v) ∈ countsOfConfig config ↔ ((jobOccurrences config).count k = v ∧ v ≠ 0) := by
  constructor
  · intro h
    have hl := mem_lookupA_of_nodup (nodupKeys_countsOfConfig config) h
    rw [lookupA_countsOfConfig] at hl
    by_cases hc : (jobOccurrences config).count k = 0
    · rw [if_pos hc] at hl
      cases hl
    · rw [if_neg hc] at hl
      injection hl with hl
      exact ⟨hl, by omega⟩
  · intro hv
    apply lookupA_mem
    rw [lookupA_countsOfConfig, hv.1, if_neg hv.2]

theorem mem_jobOccurrences_normalized {config : CircleCIConfig} {k : String}
    (h : k ∈ jobOccurrences config) : normalizeCommand k = k := by
  unfold jobOccurrences at h
  rcases List.mem_flatMap.mp h with ⟨p, hp, hk⟩
  rcases List.mem_filterMap.mp hk with ⟨step, hstep, hsome⟩
  by_cases hc : extractCommand step = ""
  · simp [hc] at hsome
  · simp [hc] at hsome
    rw [← hsome]
    exact normalizeCommand_idem _

theorem mem_countsOfConfig_normalized {config : CircleCIConfig} {c : String} {k : Nat}
    (h : (c, k) ∈ countsOfConfig config) : normalizeCommand c = c := by
  have := (mem_countsOfConfig_iff config c k).mp h
  apply @mem_jobOccurrences_normalized config c
  rw [← List.count_pos_iff]
  omega

theorem patterns_fold_no_match (name : String) (counts : List (String × Nat)) :
    ∀ acc, (∀ p ∈ counts, ¬(2 ≤ p.2 ∧ generateTaskName p.1 = name)) →
    lookupA name (counts.foldl
      (fun pats p =>
        if 2 ≤ p.2 then insertA pats (generateTaskName p.1) (patternTask p.1 p.2) else pats)
      acc) = lookupA name acc := by
  induction counts with
  | nil => intro acc _; rfl
  | cons p rest ih =>
    intro acc hno
    obtain ⟨c, k⟩ := p
    rw [List.foldl_cons]
    by_cases h2 : 2 ≤ k
    · have hne : generateTaskName c ≠ name :=
        fun hh => hno (c, k) (List.mem_cons_self _ _) ⟨h2, hh⟩
      rw [ih _ (fun q hq => hno q (List.mem_cons_of_mem _ hq))]
      show lookupA name (if 2 ≤ k then insertA acc (generateTaskName c) (patternTask c k) else acc) = _
      rw [if_pos h2, lookupA_insertA_ne _ _ _ _ hne]
    · rw [ih _ (fun q hq => hno q (List.mem_cons_of_mem _ hq))]
      show lookupA name (if 2 ≤ k then insertA acc (generateTaskName c) (patternTask c k) else acc) = _
      rw [if_neg h2]

theorem patterns_fold_lookup (name : String) (counts : List (String × Nat))
    (hnd : nodupKeys counts)
    (huniq : ∀ p ∈ counts, ∀ q ∈ counts,
      2 ≤ p.2 → 2 ≤ q.2 → generateTaskName p.1 = generateTaskName q.1 → p.1 = q.1) :
    ∀ acc, lookupA name (counts.foldl
      (fun pats p =>
        if 2 ≤ p.2 then insertA pats (generateTaskName p.1) (patternTask p.1 p.2) else pats)
      acc) =
      match counts.find? (fun p => decide (2 ≤ p.2) && (generateTaskName p.1 == name)) with
      | some p => some (patternTask p.1 p.2)
      | none => lookupA name acc := by
  induction counts with
  | nil => intro acc; rfl
  | cons p rest ih =>
    intro acc
    obtain ⟨c, k⟩ := p
    have hnd' : nodupKeys rest := (List.nodup_cons.mp hnd).2
    have huniq' : ∀ p ∈ rest, ∀ q ∈ rest,
        2 ≤ p.2 → 2 ≤ q.2 → generateTaskName p.1 = generateTaskName q.1 → p.1 = q.1 :=
      fun p hp q hq => huniq p (List.mem_cons_of_mem _ hp) q (List.mem_cons_of_mem _ hq)
    rw [List.foldl_cons]
    by_cases hsat : 2 ≤ k ∧ generateTaskName c = name
    · have hfind : List.find? (fun p => decide (2 ≤ p.2) && (generateTaskName p.1 == name))
          ((c, k) :: rest) = some (c, k) := by
        simp [List.find?_cons, hsat.1, hsat.2]
      rw [hfind]
      have hno : ∀ p ∈ rest, ¬(2 ≤ p.2 ∧ generateTaskName p.1 = name) := by
        intro p hp hcontra
        have hpc : p.1 = c :=
          huniq p (List.mem_cons_of_mem _ hp) (c, k) (List.mem_cons_self _ _)
            hcontra.1 hsat.1 (hcontra.2.trans hsat.2.symm)
        have hmem : p.1 ∈ keysA rest := List.mem_map_of_mem Prod.fst hp
        rw [hpc] at hmem
        exact (List.nodup_cons.mp hnd).1 hmem
      rw [patterns_fold_no_match name rest _ hno]
      show lookupA name (if 2 ≤ k then insertA acc (generateTaskName c) (patternTask c k) else acc) =
        some (patternTask c k)
      rw [if_pos hsat.1, hsat.2, lookupA_insertA_self]
    · have hfind : List.find? (fun p => decide (2 ≤ p.2) && (generateTaskName p.1 == name))
          ((c, k) :: rest) =
          List.find? (fun p => decide (2 ≤ p.2) && (generateTaskName p.1 == name)) rest := by
        by_cases h2 : 2 ≤ k
        · have hne : generateTaskName c ≠ name := fun hh => hsat ⟨h2, hh⟩
          simp [List.find?_cons, h2, hne]
        · simp [List.find?_cons, h2]
      rw [hfind]
      rw [ih hnd' huniq' _]
      by_cases h2 : 2 ≤ k
      · have hne : generateTaskName c ≠ name := fun hh => hsat ⟨h2, hh⟩
        cases hfind : rest.find?
            (fun p => decide (2 ≤ p.2) && (generateTaskName p.1 == name)) with
        | some q => rfl
        | none =>
          show lookupA name (if 2 ≤ k then insertA acc (generateTaskName c) (patternTask c k) else acc) = _
          rw [if_pos h2, lookupA_insertA_ne _ _ _ _ hne]
      · cases hfind : rest.find?
            (fun p => decide (2 ≤ p.2) && (generateTaskName p.1 == name)) with
        | some q => rfl
        | none =>
          show lookupA name (if 2 ≤ k then insertA acc (generateTaskName c) (patternTask c k) else acc) = _
          rw [if_neg h2]

theorem lookupA_analyzePatterns (config : CircleCIConfig) (hcoll : NoCollision config)
    (name : String) :
    lookupA name (analyzePatterns config) =
      match (countsOfConfig config).find?
        (fun p => decide (2 ≤ p.2) && (generateTaskName p.1 == name)) with
      | some p => some (patternTask p.1 p.2)
      | none => none := by
  unfold analyzePatterns
  rw [patterns_fold_lookup name _ (nodupKeys_countsOfConfig config) hcoll []]
  cases List.find? (fun p => decide (2 ≤ p.2) && (generateTaskName p.1 == name))
    (countsOfConfig config) <;> rfl

theorem mem_analyzePatterns {config : CircleCIConfig} {nm : String} {t : Task}
    (h : (nm, t) ∈ analyzePatterns config) :
    ∃ c k, (c, k) ∈ countsOfConfig config ∧ 2 ≤ k ∧
      nm = generateTaskName c ∧ t = patternTask c k := by
  unfold analyzePatterns at h
  suffices h2 : ∀ (counts : List (String × Nat)) (acc : List (String × Task)),
      (nm, t) ∈ counts.foldl
        (fun pats p =>
          if 2 ≤ p.2 then insertA pats (generateTaskName p.1) (patternTask p.1 p.2) else pats)
        acc →
      (∃ c k, (c, k) ∈ counts ∧ 2 ≤ k ∧ nm = generateTaskName c ∧ t = patternTask c k) ∨
        (nm, t) ∈ acc by
    rcases h2 _ [] h with h' | h'
    · exact h'
    · cases h'
  intro counts
  induction counts with
  | nil => intro acc hmem; exact Or.inr hmem
  | cons p rest ih =>
    intro acc hmem
    obtain ⟨c, k⟩ := p
    rw [List.foldl_cons] at hmem
    rcases ih _ hmem with h' | h'
    · rcases h' with ⟨c', k', hm, hk, hnm, ht⟩
      exact Or.inl ⟨c', k', List.mem_cons_of_mem _ hm, hk, hnm, ht⟩
    · by_cases h2 : 2 ≤ k
      · rw [show (if 2 ≤ k then insertA acc (generateTaskName c) (patternTask c k) else acc) =
            insertA acc (generateTaskName c) (patternTask c k) from if_pos h2] at h'
        rcases mem_insertA h' with h'' | h''
        · injection h'' with e1 e2
          exact Or.inl ⟨c, k, List.mem_cons_self _ _, h2, e1, e2⟩
        · exact Or.inr h''
      · rw [show (if 2 ≤ k then insertA acc (generateTaskName c) (patternTask c k) else acc) = acc
            from if_neg h2] at h'
        exact Or.inr h'

theorem analyzePatterns_deps_empty {config : CircleCIConfig} {nm : String} {t : Task}
    (h : (nm, t) ∈ analyzePatterns config) : t.Deps = [] := by
  rcases mem_analyzePatterns h with ⟨c, k, _, _, _, ht⟩
  rw [ht]
  rfl

theorem exists_pattern_entry {config : CircleCIConfig} (hcoll : NoCollision config)
    {c : String} {k : Nat} (hm : (c, k) ∈ countsOfConfig config) (h2 : 2 ≤ k) :
    (generateTaskName c, patternTask c k) ∈ analyzePatterns config := by
  apply lookupA_mem
  rw [lookupA_analyzePatterns config hcoll]
  have huniqy : ∀ y ∈ countsOfConfig config,
      (fun p => decide (2 ≤ p.2) && (generateTaskName p.1 == generateTaskName c)) y = true →
      y = (c, k) := by
    intro y hy hpy
    obtain ⟨c', k'⟩ := y
    simp only [Bool.and_eq_true, decide_eq_true_eq, beq_iff_eq] at hpy
    have hc' : c' = c := hcoll (c', k') hy (c, k) hm hpy.1 h2 hpy.2
    subst hc'
    have e1 := mem_lookupA_of_nodup (nodupKeys_countsOfConfig config) hy
    have e2 := mem_lookupA_of_nodup (nodupKeys_countsOfConfig config) hm
    rw [e1] at e2
    injection e2 with e2
    rw [e2]
  rw [find?_eq_some_unique _ _ (c, k) hm (by simp [h2]) huniqy]

theorem findPatternTask_of_counted {config : CircleCIConfig} (hcoll : NoCollision config)
    {c : String} (hfix : normalizeCommand c = c)
    (h2 : 2 ≤ (jobOccurrences config).count c) :
    findPatternTask c (analyzePatterns config) = generateTaskName c := by
  have hm : (c, (jobOccurrences config).count c) ∈ countsOfConfig config :=
    (mem_countsOfConfig_iff config c _).mpr ⟨rfl, by omega⟩
  have he := exists_pattern_entry hcoll hm h2
  unfold findPatternTask
  have hpred : (fun p : String × Task =>
      match p.2.Cmds with
      | [] => false
      | c' :: _ => normalizeCommand c' == c)
      (generateTaskName c, patternTask c ((jobOccurrences config).count c)) = true := by
    simp [patternTask, hfix]
  have huniqe : ∀ e ∈ analyzePatterns config,
      (fun p : String × Task =>
        match p.2.Cmds with
        | [] => false
        | c' :: _ => normalizeCommand c' == c) e = true →
      e = (generateTaskName c, patternTask c ((jobOccurrences config).count c)) := by
    intro e hein hpe
    rcases mem_analyzePatterns hein with ⟨c', k', hm', hk', hnm, ht⟩
    have hpe' : (match e.2.Cmds with
      | [] => false
      | c'' :: _ => normalizeCommand c'' == c) = true := hpe
    have hcmds : e.2.Cmds = [c'] := by rw [ht]; rfl
    rw [hcmds] at hpe'
    simp only [beq_iff_eq] at hpe'
    have hfix' : normalizeCommand c' = c' := mem_countsOfConfig_normalized hm'
    rw [hfix'] at hpe'
    subst hpe'
    have hkc : k' = (jobOccurrences config).count c' :=
      ((mem_countsOfConfig_iff config c' k').mp hm').1.symm
    subst hkc
    rw [show e = (e.1, e.2) from rfl, hnm, ht]
  rw [find?_eq_some_unique _ _ _ he hpred huniqe]

theorem string_mk_ne_empty {tok : List Char} (h : tok ≠ []) : String.mk tok ≠ "" := by
  intro hh
  exact h (congrArg String.data hh)

theorem goJoinStr_ne_empty {x : String} (xs : List String) (hx : x ≠ "") :
    goJoinStr "-" (x :: xs) ≠ "" := by
  cases xs with
  | nil => exact hx
  | cons y ys =>
    show x ++ "-" ++ goJoinStr "-" (y :: ys) ≠ ""
    intro h
    have hd := congrArg String.data h
    rw [String.data_append, String.data_append] at hd
    rcases List.append_eq_nil.mp hd with ⟨hd1, _⟩
    rcases List.append_eq_nil.mp hd1 with ⟨hd2, _⟩
    apply hx
    have hxmk : x = String.mk x.data := rfl
    rw [hxmk, hd2]

theorem generateTaskName_ne_empty (cmd : String) : generateTaskName cmd ≠ "" := by
  unfold generateTaskName
  by_cases h1 : (goFields cmd.data).map String.mk = []
  · simp only [h1, if_pos rfl]
    decide
  · rw [if_neg h1]
    by_cases h2 : (((goFields cmd.data).map String.mk).take 3).filter
        (fun w => !(goHasPrefixStr w "-") && !(isCommonWord w)) = []
    · rw [if_pos h2]
      decide
    · rw [if_neg h2]
      rcases hp : (((goFields cmd.data).map String.mk).take 3).filter
          (fun w => !(goHasPrefixStr w "-") && !(isCommonWord w)) with _ | ⟨x, xs⟩
      · exact absurd hp h2
      · have hxmem : x ∈ ((goFields cmd.data).map String.mk).take 3 := by
          have hxf : x ∈ (((goFields cmd.data).map String.mk).take 3).filter
              (fun w => !(goHasPrefixStr w "-") && !(isCommonWord w)) := by
            rw [hp]
            exact List.mem_cons_self _ _
          exact List.mem_of_mem_filter hxf
        have hxw : x ∈ (goFields cmd.data).map String.mk := List.mem_of_mem_take hxmem
        rcases List.mem_map.mp hxw with ⟨tok, htok, hmk⟩
        have hne : tok ≠ [] := (goFields_token_facts cmd.data tok htok).1
        have hxne : x ≠ "" := by
          rw [← hmk]
          exact string_mk_ne_empty hne
        exact goJoinStr_ne_empty xs hxne

/-! Structural lemmas about `convertConfig`. -/

theorem convertConfig_jobs_eq (config : CircleCIConfig) :
    (convertConfig config).1.Jobs =
      config.Jobs.foldl (fun a p => insertA a p.1 (newJobOf p.1 p.2)) [] := by
  show (config.Jobs.foldl
      (fun acc p =>
        (insertA acc.1 p.1 (newJobOf p.1 p.2),
         insertA acc.2 p.1 (convertJobToTask p.1 p.2 (analyzePatterns config) config.Commands)))
      ([], (convertCommandsToTasks config.Commands).foldl
        (fun acc p => insertA acc p.1 p.2) [])).1 = _
  rw [foldl_prod_split (fun a (p : String × Job) => insertA a p.1 (newJobOf p.1 p.2))
    (fun a (p : String × Job) =>
      insertA a p.1 (convertJobToTask p.1 p.2 (analyzePatterns config) config.Commands))]

theorem convertConfig_tasks_eq (config : CircleCIConfig) :
    (convertConfig config).2.Tasks =
      addLocalDevTasks
        ((analyzePatterns config).foldl (fun acc p => insertA acc p.1 p.2)
          (config.Jobs.foldl
            (fun a p =>
              insertA a p.1 (convertJobToTask p.1 p.2 (analyzePatterns config) config.Commands))
            ((convertCommandsToTasks config.Commands).foldl
              (fun acc p => insertA acc p.1 p.2) []))) := by
  show addLocalDevTasks ((analyzePatterns config).foldl (fun acc p => insertA acc p.1 p.2)
      (config.Jobs.foldl
        (fun acc p =>
          (insertA acc.1 p.1 (newJobOf p.1 p.2),
           insertA acc.2 p.1 (convertJobToTask p.1 p.2 (analyzePatterns config) config.Commands)))
        ([], (convertCommandsToTasks config.Commands).foldl
          (fun acc p => insertA acc p.1 p.2) [])).2) = _
  rw [foldl_prod_split (fun a (p : String × Job) => insertA a p.1 (newJobOf p.1 p.2))
    (fun a (p : String × Job) =>
      insertA a p.1 (convertJobToTask p.1 p.2 (analyzePatterns config) config.Commands))]

theorem jobsOut_steps (config : CircleCIConfig) :
    ∀ nm j, (nm, j) ∈ (convertConfig config).1.Jobs →
      j.Steps = [YVal.map [("run", YVal.str ("task " ++ nm))]] := by
  intro nm j h
  rw [convertConfig_jobs_eq] at h
  rcases mem_foldl_insertA newJobOf _ _ _ h with ⟨p, _, hq⟩ | h'
  · injection hq with e1 e2
    subst e1
    rw [e2]
    rfl
  · cases h'

theorem jobsOut_present (config : CircleCIConfig) (nm : String) (j : Job)
    (h : (nm, j) ∈ config.Jobs) : (lookupA nm (convertConfig config).1.Jobs).isSome := by
  rw [convertConfig_jobs_eq]
  exact lookupA_isSome_foldl_of_mem newJobOf _ _ _ _ h

theorem jobsOut_lookup (config : CircleCIConfig) (hnd : nodupKeys config.Jobs) (nm : String) :
    lookupA nm (convertConfig config).1.Jobs =
      (lookupA nm config.Jobs).map (fun j => newJobOf nm j) := by
  rw [convertConfig_jobs_eq, lookupA_foldl_insertA newJobOf _ hnd]
  cases lookupA nm config.Jobs <;> rfl

theorem nodupKeys_analyzePatterns (config : CircleCIConfig) :
    nodupKeys (analyzePatterns config) := by
  unfold analyzePatterns
  suffices h : ∀ (counts : List (String × Nat)) (acc : List (String × Task)), nodupKeys acc →
      nodupKeys (counts.foldl
        (fun pats p =>
          if 2 ≤ p.2 then insertA pats (generateTaskName p.1) (patternTask p.1 p.2) else pats)
        acc) by
    exact h _ [] (by simp [nodupKeys, keysA])
  intro counts
  induction counts with
  | nil => intro acc hacc; exact hacc
  | cons p rest ih =>
    intro acc hacc
    rw [List.foldl_cons]
    apply ih
    by_cases h2 : 2 ≤ p.2
    · rw [if_pos h2]
      exact nodupKeys_insertA _ _ hacc
    · rw [if_neg h2]
      exact hacc

theorem nodupKeys_convertCommandsToTasks (cmds : Option (List (String × Command))) :
    nodupKeys (convertCommandsToTasks cmds) := by
  cases cmds with
  | none => simp [convertCommandsToTasks, nodupKeys, keysA]
  | some l =>
    exact nodupKeys_foldl_insertA commandTask l [] (by simp [nodupKeys, keysA])

theorem tasks_lookup (config : CircleCIConfig) (hndJ : nodupKeys config.Jobs) (name : String) :
    lookupA name (convertConfig config).2.Tasks =
      oOr (lookupLocalDev name)
        (oOr (lookupA name (analyzePatterns config))
          (oOr ((lookupA name config.Jobs).map
              (fun job => convertJobToTask name job (analyzePatterns config) config.Commands))
            (lookupA name (convertCommandsToTasks config.Commands)))) := by
  rw [convertConfig_tasks_eq]
  unfold addLocalDevTasks lookupLocalDev
  have hbase :
      lookupA name ((convertCommandsToTasks config.Commands).foldl
        (fun acc p => insertA acc p.1 p.2) []) =
      lookupA name (convertCommandsToTasks config.Commands) := by
    rw [lookupA_foldl_insertA (fun _ v => v) _ (nodupKeys_convertCommandsToTasks _) [] name]
    cases lookupA name (convertCommandsToTasks config.Commands) <;> rfl
  have hjobs :
      lookupA name (config.Jobs.foldl
        (fun a p =>
          insertA a p.1 (convertJobToTask p.1 p.2 (analyzePatterns config) config.Commands))
        ((convertCommandsToTasks config.Commands).foldl
          (fun acc p => insertA acc p.1 p.2) [])) =
      oOr ((lookupA name config.Jobs).map
          (fun job => convertJobToTask name job (analyzePatterns config) config.Commands))
        (lookupA name (convertCommandsToTasks config.Commands)) := by
    rw [lookupA_foldl_insertA
      (fun n job => convertJobToTask n job (analyzePatterns config) config.Commands) _ hndJ,
      hbase]
  have hpats :
      lookupA name ((analyzePatterns config).foldl (fun acc p => insertA acc p.1 p.2)
        (config.Jobs.foldl
          (fun a p =>
            insertA a p.1 (convertJobToTask p.1 p.2 (analyzePatterns config) config.Commands))
          ((convertCommandsToTasks config.Commands).foldl
            (fun acc p => insertA acc p.1 p.2) []))) =
      oOr (lookupA name (analyzePatterns config))
        (oOr ((lookupA name config.Jobs).map
            (fun job => convertJobToTask name job (analyzePatterns config) config.Commands))
          (lookupA name (convertCommandsToTasks config.Commands))) := by
    rw [lookupA_foldl_insertA (fun _ v => v) _ (nodupKeys_analyzePatterns config), hjobs]
    cases lookupA name (analyzePatterns config) <;> rfl
  by_cases h1 : name = "ci-local"
  · subst h1
    rw [lookupA_insertA_self]
    rfl
  · rw [lookupA_insertA_ne _ _ _ _ (fun hh => h1 hh.symm)]
    by_cases h2 : name = "setup-local"
    · subst h2
      rw [lookupA_insertA_self]
      simp only [if_neg (by decide : ¬("setup-local" : String) = "ci-local")]
      rfl
    · rw [lookupA_insertA_ne _ _ _ _ (fun hh => h2 hh.symm)]
      by_cases h3 : name = "clean"
      · subst h3
        rw [lookupA_insertA_self]
        simp only [if_neg (by decide : ¬("clean" : String) = "ci-local"),
          if_neg (by decide : ¬("clean" : String) = "setup-local")]
        rfl
      · rw [lookupA_insertA_ne _ _ _ _ (fun hh => h3 hh.symm)]
        rw [hpats]
        simp only [if_neg h1, if_neg h2, if_neg h3]
        rfl

theorem findPatternTask_mem {normalized : String} {patterns : List (String × Task)}
    (h : findPatternTask normalized patterns ≠ "") :
    ∃ p ∈ patterns, findPatternTask normalized patterns = p.1 := by
  unfold findPatternTask at h ⊢
  cases hf : patterns.find? (fun p =>
      match p.2.Cmds with
      | [] => false
      | c :: _ => normalizeCommand c == normalized) with
  | none =>
    rw [hf] at h
    exact absurd rfl h
  | some p =>
    exact ⟨p, List.mem_of_find?_eq_some hf, rfl⟩

theorem jobStepFold_eq_plain (patterns : List (String × Task))
    (commands : Option (List (String × Command))) (acc : List String × List String)
    (step : YVal) (hcmd : extractCommand step ≠ "") :
    jobStepFold patterns commands acc step = jobStepPlain patterns acc (extractCommand step) := by
  unfold jobStepFold
  simp [hcmd]

theorem jobStepFold_eq_other (patterns : List (String × Task))
    (commands : Option (List (String × Command))) (acc : List String × List String)
    (step : YVal) (hcmd : extractCommand step = "") :
    jobStepFold patterns commands acc step = jobStepOther commands acc step := by
  unfold jobStepFold
  simp [hcmd]

theorem jobStepPlain_snd_shape (patterns : List (String × Task))
    (acc : List String × List String) (cmd : String) :
    (jobStepPlain patterns acc cmd).2 = acc.2 ∨
    (∃ p ∈ patterns, (jobStepPlain patterns acc cmd).2 = acc.2 ++ [p.1]) := by
  unfold jobStepPlain
  by_cases htn : findPatternTask (normalizeCommand (convertParameterSyntax cmd)) patterns ≠ ""
  · rcases findPatternTask_mem htn with ⟨p, hp, he⟩
    right
    refine ⟨p, hp, ?_⟩
    rw [if_pos htn]
    exact congrArg (fun s => acc.2 ++ [s]) he
  · left
    simp only [htn, if_neg]
    simp at htn
    simp [htn]

theorem jobStepOther_snd_shape (commands : Option (List (String × Command)))
    (acc : List String × List String) (step : YVal) :
    (jobStepOther commands acc step).2 = acc.2 ∨
    (∃ s, (jobStepOther commands acc step).2 = acc.2 ++ [s] ∧
      (lookupCommand commands s).isSome) := by
  cases step with
  | str s =>
    by_cases hlk : (lookupCommand commands s).isSome
    · right
      refine ⟨s, ?_, hlk⟩
      unfold jobStepOther
      simp [hlk]
    · left
      unfold jobStepOther
      simp only [hlk]
      simp [hlk]
      split <;> rfl
  | map m =>
    left
    unfold jobStepOther
    cases hinv : isCommandInvocation (YVal.map m) <;> simp [hinv] <;> split <;> rfl
  | num n =>
    left
    unfold jobStepOther
    cases hinv : isCommandInvocation (YVal.num n) <;> simp [hinv] <;> split <;> rfl
  | bool b =>
    left
    unfold jobStepOther
    cases hinv : isCommandInvocation (YVal.bool b) <;> simp [hinv] <;> split <;> rfl
  | null =>
    left
    unfold jobStepOther
    cases hinv : isCommandInvocation YVal.null <;> simp [hinv] <;> split <;> rfl
  | arr l =>
    left
    unfold jobStepOther
    cases hinv : isCommandInvocation (YVal.arr l) <;> simp [hinv] <;> split <;> rfl

theorem jobStepFold_snd_shape (patterns : List (String × Task))
    (commands : Option (List (String × Command))) (acc : List String × List String) (step : YVal) :
    (jobStepFold patterns commands acc step).2 = acc.2 ∨
    (∃ s, (jobStepFold patterns commands acc step).2 = acc.2 ++ [s] ∧
      (lookupCommand commands s).isSome) ∨
    (∃ p ∈ patterns, (jobStepFold patterns commands acc step).2 = acc.2 ++ [p.1]) := by
  by_cases hcmd : extractCommand step = ""
  · rw [jobStepFold_eq_other patterns commands acc step hcmd]
    rcases jobStepOther_snd_shape commands acc step with h | ⟨s, hs, hlk⟩
    · exact Or.inl h
    · exact Or.inr (Or.inl ⟨s, hs, hlk⟩)
  · rw [jobStepFold_eq_plain patterns commands acc step hcmd]
    rcases jobStepPlain_snd_shape patterns acc (extractCommand step) with h | ⟨p, hp, hs⟩
    · exact Or.inl h
    · exact Or.inr (Or.inr ⟨p, hp, hs⟩)

theorem foldl_jobStepFold_snd (patterns : List (String × Task))
    (commands : Option (List (String × Command))) (steps : List YVal) :
    ∀ (acc : List String × List String) (d : String),
      d ∈ (steps.foldl (jobStepFold patterns commands) acc).2 →
      d ∈ acc.2 ∨ (∃ p ∈ patterns, d = p.1) ∨ (lookupCommand commands d).isSome := by
  induction steps with
  | nil => intro acc d hd; exact Or.inl hd
  | cons step rest ih =>
    intro acc d hd
    rw [List.foldl_cons] at hd
    rcases ih _ d hd with h' | h' | h'
    · rcases jobStepFold_snd_shape patterns commands acc step with hs | ⟨s, hs, hlk⟩ | ⟨p, hp, hs⟩
      · rw [hs] at h'
        exact Or.inl h'
      · rw [hs] at h'
        rcases List.mem_append.mp h' with h'' | h''
        · exact Or.inl h''
        · rcases List.mem_singleton.mp h'' with rfl
          exact Or.inr (Or.inr hlk)
      · rw [hs] at h'
        rcases List.mem_append.mp h' with h'' | h''
        · exact Or.inl h''
        · rcases List.mem_singleton.mp h'' with rfl
          exact Or.inr (Or.inl ⟨p, hp, rfl⟩)
    · exact Or.inr (Or.inl h')
    · exact Or.inr (Or.inr h')

theorem convertJobToTask_deps (jobName : String) (job : Job) (patterns : List (String × Task))
    (commands : Option (List (String × Command))) :
    ∀ d ∈ (convertJobToTask jobName job patterns commands).Deps,
      (∃ p ∈ patterns, d = p.1) ∨ (lookupCommand commands d).isSome := by
  intro d hd
  have hdeps : (convertJobToTask jobName job patterns commands).Deps =
      (job.Steps.foldl (jobStepFold patterns commands) ([], [])).2 := rfl
  rw [hdeps] at hd
  rcases foldl_jobStepFold_snd patterns commands job.Steps ([], []) d hd with h | h | h
  · cases h
  · exact Or.inl h
  · exact Or.inr h

theorem foldl_jobStepFold_snd_mono (patterns : List (String × Task))
    (commands : Option (List (String × Command))) (steps : List YVal) :
    ∀ (acc : List String × List String) (d : String), d ∈ acc.2 →
      d ∈ (steps.foldl (jobStepFold patterns commands) acc).2 := by
  induction steps with
  | nil => intro acc d hd; exact hd
  | cons step rest ih =>
    intro acc d hd
    rw [List.foldl_cons]
    apply ih
    rcases jobStepFold_snd_shape patterns commands acc step with hs | ⟨s, hs, _⟩ | ⟨p, _, hs⟩
    · rw [hs]; exact hd
    · rw [hs]; exact List.mem_append.mpr (Or.inl hd)
    · rw [hs]; exact List.mem_append.mpr (Or.inl hd)

theorem convertJobToTask_mem_dep (jobName : String) (job : Job)
    (patterns : List (String × Task)) (commands : Option (List (String × Command)))
    (step : YVal) (hstep : step ∈ job.Steps) (hcmd : extractCommand step ≠ "")
    (htn : findPatternTask (normalizeCommand (convertParameterSyntax (extractCommand step)))
      patterns ≠ "") :
    findPatternTask (normalizeCommand (convertParameterSyntax (extractCommand step))) patterns ∈
      (convertJobToTask jobName job patterns commands).Deps := by
  have hdeps : (convertJobToTask jobName job patterns commands).Deps =
      (job.Steps.foldl (jobStepFold patterns commands) ([], [])).2 := rfl
  rw [hdeps]
  rcases List.append_of_mem hstep with ⟨pre, post, hsplit⟩
  rw [hsplit, List.foldl_append, List.foldl_cons]
  apply foldl_jobStepFold_snd_mono
  rw [jobStepFold_eq_plain patterns commands _ step hcmd]
  unfold jobStepPlain
  rw [if_pos htn]
  exact List.mem_append.mpr (Or.inr (List.mem_singleton.mpr rfl))

/-! Helpers for the claim theorems. -/

theorem oOr_isSome_left {α : Type} {x y : Option α} (h : x.isSome) : (oOr x y).isSome := by
  cases x with
  | none => exact Bool.noConfusion h
  | some v => rfl

theorem oOr_isSome_right {α : Type} (x : Option α) {y : Option α} (h : y.isSome) :
    (oOr x y).isSome := by
  cases x with
  | none => exact h
  | some v => rfl

theorem keysA_of_isSome {α : Type} {l : List (String × α)} {k : String}
    (h : (lookupA k l).isSome) : k ∈ keysA l := by
  by_contra hno
  have hnone := (lookupA_eq_none_iff l k).mpr hno
  rw [hnone] at h
  exact Bool.noConfusion h

theorem convertCommandsToTasks_key {commands : Option (List (String × Command))} {k : String}
    (h : (lookupCommand commands k).isSome) :
    (lookupA k (convertCommandsToTasks commands)).isSome := by
  cases commands with
  | none => exact Bool.noConfusion h
  | some l =>
    have h' : (lookupA k l).isSome := h
    cases hlk : lookupA k l with
    | none => rw [hlk] at h'; exact Bool.noConfusion h'
    | some c =>
      exact lookupA_isSome_foldl_of_mem commandTask l [] k c (lookupA_mem hlk)

theorem convertCommandsToTasks_deps_empty {commands : Option (List (String × Command))}
    {nm : String} {t : Task} (h : (nm, t) ∈ convertCommandsToTasks commands) : t.Deps = [] := by
  cases commands with
  | none => cases h
  | some l =>
    rcases mem_foldl_insertA commandTask l [] _ h with ⟨p, _, hq⟩ | h'
    · injection hq with _ e2
      rw [e2]
      rfl
    · cases h'

theorem mem_convertConfig_tasks (config : CircleCIConfig) (q : String × Task)
    (h : q ∈ (convertConfig config).2.Tasks) :
    q = ("ci-local", ciLocalTask) ∨ q = ("setup-local", setupLocalTask) ∨
    q = ("clean", cleanTask) ∨ q ∈ analyzePatterns config ∨
    (∃ p ∈ config.Jobs,
      q = (p.1, convertJobToTask p.1 p.2 (analyzePatterns config) config.Commands)) ∨
    q ∈ convertCommandsToTasks config.Commands := by
  rw [convertConfig_tasks_eq] at h
  unfold addLocalDevTasks at h
  rcases mem_insertA h with h | h
  · exact Or.inl h
  rcases mem_insertA h with h | h
  · exact Or.inr (Or.inl h)
  rcases mem_insertA h with h | h
  · exact Or.inr (Or.inr (Or.inl h))
  rcases mem_foldl_insertA (fun _ v => v) (analyzePatterns config) _ _ h with ⟨p, hp, hq⟩ | h
  · exact Or.inr (Or.inr (Or.inr (Or.inl (hq ▸ hp))))
  rcases mem_foldl_insertA
      (fun n j => convertJobToTask n j (analyzePatterns config) config.Commands)
      config.Jobs _ _ h with ⟨p, hp, hq⟩ | h
  · exact Or.inr (Or.inr (Or.inr (Or.inr (Or.inl ⟨p, hp, hq⟩))))
  rcases mem_foldl_insertA (fun _ v => v) (convertCommandsToTasks config.Commands) [] _ h with
    ⟨p, hp, hq⟩ | h
  · exact Or.inr (Or.inr (Or.inr (Or.inr (Or.inr (hq ▸ hp)))))
  · cases h

theorem append_ne_empty_left {s : String} (t : String) (h : s ≠ "") : s ++ t ≠ "" := by
  intro hh
  have hd := congrArg String.data hh
  rw [String.data_append] at hd
  rcases List.append_eq_nil.mp hd with ⟨h1, _⟩
  apply h
  have hs : s = String.mk s.data := rfl
  rw [hs, h1]

theorem convertStepEntry_empty {key : String} {value : YVal}
    (h : convertStepEntry key value = "") : value = YVal.str "" ∧ key ∉ handledStepKeys := by
  unfold convertStepEntry at h
  by_cases h1 : key = "checkout"
  · rw [if_pos h1] at h
    exact absurd h (by decide)
  rw [if_neg h1] at h
  by_cases h2 : key = "setup_remote_docker"
  · rw [if_pos h2] at h
    exact absurd h (by decide)
  rw [if_neg h2] at h
  by_cases h3 : key = "save_cache"
  · rw [if_pos h3] at h
    split at h
    · split at h
      · exact absurd h (append_ne_empty_left _ (by decide))
      · exact absurd h (by decide)
    · exact absurd h (by decide)
  rw [if_neg h3] at h
  by_cases h4 : key = "restore_cache"
  · rw [if_pos h4] at h
    exact absurd h (by decide)
  rw [if_neg h4] at h
  by_cases h5 : key = "persist_to_workspace"
  · rw [if_pos h5] at h
    split at h
    · split at h
      · exact absurd h (append_ne_empty_left _ (append_ne_empty_left _ (by decide)))
      · exact absurd h (by decide)
    · exact absurd h (by decide)
  rw [if_neg h5] at h
  by_cases h6 : key = "attach_workspace"
  · rw [if_pos h6] at h
    exact absurd h (by decide)
  rw [if_neg h6] at h
  by_cases h7 : key = "store_artifacts"
  · rw [if_pos h7] at h
    split at h
    · split at h
      · exact absurd h (append_ne_empty_left _ (append_ne_empty_left _ (by decide)))
      · exact absurd h (by decide)
    · exact absurd h (by decide)
  rw [if_neg h7] at h
  by_cases h8 : key = "store_test_results"
  · rw [if_pos h8] at h
    split at h
    · split at h
      · exact absurd h (append_ne_empty_left _ (append_ne_empty_left _ (by decide)))
      · exact absurd h (by decide)
    · exact absurd h (by decide)
  rw [if_neg h8] at h
  split at h
  · subst h
    refine ⟨rfl, ?_⟩
    simp [handledStepKeys]
    exact ⟨h1, h2, h3, h4, h5, h6, h7, h8⟩
  · exact absurd h (append_ne_empty_left _ (append_ne_empty_left _ (by decide)))

theorem perm_flatMap {α β : Type} {l₁ l₂ : List α} (f : α → List β) (h : l₁.Perm l₂) :
    (l₁.flatMap f).Perm (l₂.flatMap f) := by
  induction h with
  | nil => exact List.Perm.refl _
  | cons x h ih =>
    simp only [List.flatMap_cons]
    exact ih.append_left (f x)
  | swap x y l =>
    simp only [List.flatMap_cons, ← List.append_assoc]
    exact List.perm_append_comm.append_right _
  | trans h1 h2 ih1 ih2 => exact ih1.trans ih2

theorem jobOccurrences_perm {config' config : CircleCIConfig}
    (hjobs : config'.Jobs.Perm config.Jobs) :
    (jobOccurrences config').Perm (jobOccurrences config) := by
  unfold jobOccurrences
  exact perm_flatMap _ hjobs

/-- C1 (corrected): pattern tasks are synthesized from job-step
occurrences only, not from the union of job and reusable-command steps.
Under collision-freedom of generated names, a pattern task whose command
list is `[c]` exists (keyed by the generated name of `c`) iff the
normalized command `c` occurs at least twice among plain job-step
commands; every plain job step whose rewritten text normalizes to `c`
then becomes a dependency edge on it.  Reusable-command steps are neither
counted nor converted to dependency edges (see the counterexample). -/
theorem claim1_pattern_synthesis (config : CircleCIConfig) (hcoll : NoCollision config)
    (c : String) (hfix : normalizeCommand c = c) :
    ((∃ t, (generateTaskName c, t) ∈ analyzePatterns config ∧ t.Cmds = [c]) ↔
      2 ≤ (jobOccurrences config).count c) ∧
    (2 ≤ (jobOccurrences config).count c →
      ∀ nm job step, (nm, job) ∈ config.Jobs → step ∈ job.Steps →
        extractCommand step ≠ "" →
        normalizeCommand (convertParameterSyntax (extractCommand step)) = c →
        generateTaskName c ∈
          (convertJobToTask nm job (analyzePatterns config) config.Commands).Deps) := by
  constructor
  · constructor
    · rintro ⟨t, hmem, hcmds⟩
      rcases mem_analyzePatterns hmem with ⟨c', k, hm, hk2, _, ht⟩
      have hcc : c' = c := by
        have hcm : t.Cmds = [c'] := by rw [ht]; rfl
        rw [hcmds] at hcm
        injection hcm with e1 _
        exact e1.symm
      subst hcc
      have hcount := (mem_countsOfConfig_iff config c' k).mp hm
      have := hcount.1
      omega
    · intro h2
      refine ⟨patternTask c ((jobOccurrences config).count c), ?_, rfl⟩
      exact exists_pattern_entry hcoll
        ((mem_countsOfConfig_iff config c _).mpr ⟨rfl, by omega⟩) h2
  · intro h2 nm job step hjob hstep hcmd hnorm
    have htn : findPatternTask
        (normalizeCommand (convertParameterSyntax (extractCommand step)))
        (analyzePatterns config) = generateTaskName c := by
      rw [hnorm]
      exact findPatternTask_of_counted hcoll hfix h2
    have htn' : findPatternTask
        (normalizeCommand (convertParameterSyntax (extractCommand step)))
        (analyzePatterns config) ≠ "" := by
      rw [htn]
      exact generateTaskName_ne_empty c
    have hd := convertJobToTask_mem_dep nm job (analyzePatterns config) config.Commands
      step hstep hcmd htn'
    rw [htn] at hd
    exact hd

theorem claim1_witness :
    NoCollision cfgW1 ∧
    generateTaskName "echo hi" ∈
      (convertJobToTask "a" (mkJob [runStep "echo hi", runStep "echo hi"])
        (analyzePatterns cfgW1) cfgW1.Commands).Deps :=
  ⟨by unfold NoCollision; decide,
   (claim1_pattern_synthesis cfgW1 (by unfold NoCollision; decide) "echo hi" (by decide)).2
     (by decide) "a" (mkJob [runStep "echo hi", runStep "echo hi"]) (runStep "echo hi")
     (List.mem_cons_self _ _) (List.mem_cons_self _ _) (by decide) (by decide)⟩

theorem claim1_counterexample :
    (specUnionOccurrences cexC1).count "echo hi" = 2 ∧
    analyzePatterns cexC1 = [] ∧
    lookupA "c" (convertConfig cexC1).2.Tasks = some
      { Desc := "Task converted from CircleCI command: c",
        Cmds := ["echo hi", "echo hi"],
        Deps := [], Dir := "", Silent := false, Vars := none } :=
  ⟨by decide, rfl, by decide⟩

/-- C2: every job of the input appears in the minimized CI output, and
every job written there carries exactly one step, a `run` step whose text
invokes the task runner with the job name (`task <job-name>`). -/
theorem claim2_minimized_jobs (config : CircleCIConfig) :
    (∀ nm j, (nm, j) ∈ config.Jobs → (lookupA nm (convertConfig config).1.Jobs).isSome) ∧
    (∀ nm j, (nm, j) ∈ (convertConfig config).1.Jobs →
      j.Steps = [YVal.map [("run", YVal.str ("task " ++ nm))]]) :=
  ⟨fun nm j h => jobsOut_present config nm j h, fun nm j h => jobsOut_steps config nm j h⟩

/-- C3: with distinct job names (Go maps have unique keys), every name
appearing in any `deps` list of the output task map is a key of that map:
pattern-task dependencies, reusable-command dependencies, and the
`ci-local` to `setup-local` dependency all resolve. -/
theorem claim3_no_dangling_deps (config : CircleCIConfig) (hndJ : nodupKeys config.Jobs) :
    ∀ nm t, (nm, t) ∈ (convertConfig config).2.Tasks → ∀ d ∈ t.Deps,
      d ∈ keysA (convertConfig config).2.Tasks := by
  intro nm t hmem d hd
  apply keysA_of_isSome
  rcases mem_convertConfig_tasks config (nm, t) hmem with h | h | h | h | h | h
  · injection h with _ h2
    subst h2
    have hds : d = "setup-local" := List.mem_singleton.mp hd
    subst hds
    rw [tasks_lookup config hndJ]
    apply oOr_isSome_left
    decide
  · injection h with _ h2
    subst h2
    exact absurd hd (List.not_mem_nil d)
  · injection h with _ h2
    subst h2
    exact absurd hd (List.not_mem_nil d)
  · have hde := analyzePatterns_deps_empty h
    rw [hde] at hd
    exact absurd hd (List.not_mem_nil d)
  · obtain ⟨p, hp, hq⟩ := h
    injection hq with _ h2
    subst h2
    rcases convertJobToTask_deps p.1 p.2 (analyzePatterns config) config.Commands d hd with
      ⟨q, hq2, hdq⟩ | hcmd
    · subst hdq
      rw [tasks_lookup config hndJ]
      apply oOr_isSome_right
      apply oOr_isSome_left
      have hlk := mem_lookupA_of_nodup (nodupKeys_analyzePatterns config)
        (show (q.1, q.2) ∈ analyzePatterns config from hq2)
      rw [hlk]
      rfl
    · rw [tasks_lookup config hndJ]
      apply oOr_isSome_right
      apply oOr_isSome_right
      apply oOr_isSome_right
      exact convertCommandsToTasks_key hcmd
  · have hde := convertCommandsToTasks_deps_empty h
    rw [hde] at hd
    exact absurd hd (List.not_mem_nil d)

theorem claim3_witness :
    nodupKeys cfgW3.Jobs ∧ "setup-local" ∈ keysA (convertConfig cfgW3).2.Tasks :=
  ⟨List.nodup_nil,
   claim3_no_dangling_deps cfgW3 List.nodup_nil "ci-local" ciLocalTask
     (List.mem_cons_of_mem _ (List.mem_cons_of_mem _ (List.mem_cons_self _ _)))
     "setup-local" (List.mem_cons_self _ _)⟩

/-- C4: command normalization is idempotent and depends only on the token
sequence: strings with the same `strings.Fields` decomposition (the same
tokens regardless of whitespace and line-break placement) normalize
identically. -/
theorem claim4_normalization :
    (∀ s, normalizeCommand (normalizeCommand s) = normalizeCommand s) ∧
    (∀ s t, goFields s.data = goFields t.data → normalizeCommand s = normalizeCommand t) :=
  ⟨normalizeCommand_idem, fun _ _ h => normalizeCommand_congr h⟩

/-- C5 (corrected): parameter rewriting is the identity on marker-free
text, and replaces every well-formed `<< parameters.<name> >>` marker
(pieces free of angle brackets) with the task-runner variable form of the
upper-cased name.  A malformed marker is NOT always left untouched: any
text up to the next ` >>`, including an empty name, is consumed and
replaced (see the counterexample). -/
theorem claim5_parameter_rewrite :
    (∀ s : String, '<' ∉ s.data → convertParameterSyntax s = s) ∧
    (∀ (segs : List (List Char × List Char)) (t : List Char),
      (∀ p ∈ segs, cleanText p.1 ∧ cleanText p.2) → cleanText t →
      convertParameterSyntax (String.mk (flattenSegs segs t)) = String.mk (replSegs segs t)) := by
  constructor
  · intro s h
    show String.mk (convertParamFuel s.data.length s.data) = s
    rw [convertParamFuel_of_none (indexOfSub_patOpen_none h)]
  · intro segs t hclean ht
    show String.mk (convertParamFuel (flattenSegs segs t).length (flattenSegs segs t)) = _
    have h := convertParamFuel_wellFormed segs [] t (flattenSegs segs t).length
      (flattenSegs_length segs t) hclean ⟨List.not_mem_nil _, List.not_mem_nil _⟩ ht
    simp only [List.nil_append] at h
    rw [h]

theorem claim5_counterexample :
    convertParameterSyntax "<< parameters. >>" = "\x7b\x7b.\x7d\x7d" ∧
    ("\x7b\x7b.\x7d\x7d" : String) ≠ "<< parameters. >>" :=
  ⟨rfl, by decide⟩

/-- C6: the worked scenario.  A reusable command `deploy` declaring a
parameter `target` with default `production`, invoked from job `build`
with `target: staging`, yields a `deploy` task whose variable table maps
TARGET to a default expression falling back to `production`, and a
`build` task whose single command line (not a dependency edge) is
`task deploy TARGET=staging`. -/
theorem claim6_worked_scenario :
    lookupA "deploy" (convertConfig cfg6C).2.Tasks = some
      { Desc := "Task converted from CircleCI command: deploy",
        Cmds := ["echo \x7b\x7b.TARGET\x7d\x7d"],
        Deps := [], Dir := "", Silent := false,
        Vars := some [("TARGET", "\x7b\x7b.TARGET | default \"production\"\x7d\x7d")] } ∧
    lookupA "build" (convertConfig cfg6C).2.Tasks = some
      { Desc := "Task converted from CircleCI job: build",
        Cmds := ["task deploy TARGET=staging"],
        Deps := [], Dir := "", Silent := false, Vars := none } :=
  ⟨by decide, by decide⟩

/-- C7 (corrected): rewriting a job in the minimized CI output preserves
its executor, docker, machine and parameter declarations and replaces its
steps with the single `task <name>` run step; the environment does NOT
pass through: the struct literal written back omits it, zeroing it to nil
(see the counterexample). -/
theorem claim7_job_rewrite (config : CircleCIConfig) (hndJ : nodupKeys config.Jobs)
    (nm : String) (job : Job) (h : lookupA nm config.Jobs = some job) :
    lookupA nm (convertConfig config).1.Jobs = some
      { Executor := job.Executor, Docker := job.Docker, Machine := job.Machine,
        Parameters := job.Parameters,
        Steps := [YVal.map [("run", YVal.str ("task " ++ nm))]],
        Environment := YVal.null } := by
  rw [jobsOut_lookup config hndJ, h]
  rfl

theorem claim7_witness :
    lookupA "j" (convertConfig cex7).1.Jobs = some
      { Executor := YVal.null, Docker := [], Machine := YVal.null,
        Parameters := none,
        Steps := [YVal.map [("run", YVal.str ("task " ++ "j"))]],
        Environment := YVal.null } :=
  claim7_job_rewrite cex7 (by show (["j"] : List String).Nodup; decide) "j" jobEnv7 rfl

theorem claim7_counterexample :
    jobEnv7.Environment = YVal.map [("FOO", YVal.str "bar")] ∧
    (lookupA "j" (convertConfig cex7).1.Jobs).map Job.Environment = some YVal.null ∧
    YVal.null ≠ YVal.map [("FOO", YVal.str "bar")] :=
  ⟨rfl, rfl, fun h => YVal.noConfusion h⟩

/-- C8 (corrected): tasks are merged in the order reusable-command tasks,
then job tasks, then pattern tasks, then the three fixed local-development
tasks, and a later write DOES overwrite an earlier entry of the same name:
the resulting lookup precedence is local-development over patterns over
jobs over reusable commands — the reverse of the claimed order (see the
counterexample, where a job task silently overrides a reusable-command
task of the same name). -/
theorem claim8_merge_precedence (config : CircleCIConfig) (hndJ : nodupKeys config.Jobs)
    (name : String) :
    lookupA name (convertConfig config).2.Tasks =
      oOr (lookupLocalDev name)
        (oOr (lookupA name (analyzePatterns config))
          (oOr ((lookupA name config.Jobs).map
              (fun job => convertJobToTask name job (analyzePatterns config) config.Commands))
            (lookupA name (convertCommandsToTasks config.Commands)))) :=
  tasks_lookup config hndJ name

theorem claim8_witness :
    lookupA "x" (convertConfig cex8).2.Tasks =
      oOr (lookupLocalDev "x")
        (oOr (lookupA "x" (analyzePatterns cex8))
          (oOr ((lookupA "x" cex8.Jobs).map
              (fun job => convertJobToTask "x" job (analyzePatterns cex8) cex8.Commands))
            (lookupA "x" (convertCommandsToTasks cex8.Commands)))) :=
  claim8_merge_precedence cex8 (by show (["x"] : List String).Nodup; decide) "x"

theorem claim8_counterexample :
    (lookupA "x" (convertConfig cex8).2.Tasks).map Task.Desc =
      some "Task converted from CircleCI job: x" ∧
    (lookupA "x" (convertCommandsToTasks cex8.Commands)).map Task.Desc =
      some "Task converted from CircleCI command: x" ∧
    ("Task converted from CircleCI job: x" : String) ≠
      "Task converted from CircleCI command: x" :=
  ⟨by decide, by decide, by decide⟩

/-- C9 (corrected): the pattern table is independent of map iteration
order only in the absence of generated-name collisions: for job maps
enumerated in permuted orders, pattern lookups agree whenever no two
distinct normalized commands counted at least twice derive the same
generated task name.  Under such a collision the surviving pattern task
depends on the enumeration order (see the counterexample). -/
theorem claim9_pattern_determinism (config' config : CircleCIConfig)
    (hjobs : config'.Jobs.Perm config.Jobs) (hcoll : NoCollision config) (name : String) :
    lookupA name (analyzePatterns config') = lookupA name (analyzePatterns config) := by
  have hperm := jobOccurrences_perm hjobs
  have hcount : ∀ k : String,
      (jobOccurrences config').count k = (jobOccurrences config).count k :=
    fun k => hperm.count_eq k
  have hmem : ∀ (c : String) (k : Nat),
      (c, k) ∈ countsOfConfig config' ↔ (c, k) ∈ countsOfConfig config := by
    intro c k
    rw [mem_countsOfConfig_iff, mem_countsOfConfig_iff, hcount c]
  have hcoll' : NoCollision config' := by
    intro p hp q hq h2p h2q hg
    exact hcoll p ((hmem p.1 p.2).mp hp) q ((hmem q.1 q.2).mp hq) h2p h2q hg
  rw [lookupA_analyzePatterns config' hcoll' name, lookupA_analyzePatterns config hcoll name]
  cases hfind : (countsOfConfig config').find?
      (fun p => decide (2 ≤ p.2) && (generateTaskName p.1 == name)) with
  | none =>
    have hnone : (countsOfConfig config).find?
        (fun p => decide (2 ≤ p.2) && (generateTaskName p.1 == name)) = none := by
      rw [List.find?_eq_none]
      intro x hx hpx
      have hx' : x ∈ countsOfConfig config' := (hmem x.1 x.2).mpr hx
      exact (List.find?_eq_none.mp hfind) x hx' hpx
    rw [hnone]
  | some p =>
    have hpm' : p ∈ countsOfConfig config' := List.mem_of_find?_eq_some hfind
    have hppred := List.find?_some hfind
    have hpm : p ∈ countsOfConfig config := (hmem p.1 p.2).mp hpm'
    have huniq : ∀ y ∈ countsOfConfig config,
        (fun q => decide (2 ≤ q.2) && (generateTaskName q.1 == name)) y = true → y = p := by
      intro y hy hpy
      simp only [Bool.and_eq_true, decide_eq_true_eq, beq_iff_eq] at hpy hppred
      have hy1 : y.1 = p.1 := hcoll y hy p hpm hpy.1 hppred.1 (hpy.2.trans hppred.2.symm)
      have e1 := mem_lookupA_of_nodup (nodupKeys_countsOfConfig config)
        (show (y.1, y.2) ∈ countsOfConfig config from hy)
      have e2 := mem_lookupA_of_nodup (nodupKeys_countsOfConfig config)
        (show (p.1, p.2) ∈ countsOfConfig config from hpm)
      rw [hy1] at e1
      rw [e1] at e2
      injection e2 with e2
      exact Prod.ext hy1 e2
    rw [find?_eq_some_unique (countsOfConfig config) _ p hpm hppred huniq]

theorem claim9_witness :
    lookupA "echo-hi" (analyzePatterns cfgW9b) = lookupA "echo-hi" (analyzePatterns cfgW9a) :=
  claim9_pattern_determinism cfgW9b cfgW9a (List.Perm.swap _ _ [])
    (by unfold NoCollision; decide) "echo-hi"

theorem claim9_counterexample :
    cfg9b.Jobs.Perm cfg9a.Jobs ∧
    (lookupA "npm-install" (analyzePatterns cfg9a)).map Task.Cmds =
      some ["npm install --force"] ∧
    (lookupA "npm-install" (analyzePatterns cfg9b)).map Task.Cmds =
      some ["npm install"] ∧
    (["npm install --force"] : List String) ≠ ["npm install"] :=
  ⟨List.Perm.swap _ _ [], by decide, by decide, by decide⟩

/-- C10 (corrected): rendering a step to its local-equivalent command
line is total but not always non-empty: the result is empty exactly when
the step is a mapping whose first entry pairs a key outside the handled
step keys with an empty string payload (the default branch returns the
payload verbatim). -/
theorem claim10_step_render_empty (step : YVal) :
    convertStepToCommand step = "" ↔
      ∃ key rest, step = YVal.map ((key, YVal.str "") :: rest) ∧ key ∉ handledStepKeys := by
  constructor
  · intro h
    cases step with
    | str s =>
      by_cases hs : s = "checkout"
      · rw [show convertStepToCommand (YVal.str s) = "git checkout HEAD" from by
          simp [convertStepToCommand, hs]] at h
        exact absurd h (by decide)
      · rw [show convertStepToCommand (YVal.str s) = "task " ++ s from by
          simp [convertStepToCommand, hs]] at h
        exact absurd h (append_ne_empty_left s (by decide))
    | num n =>
      exact absurd h (show ("echo \x27Unknown step type\x27" : String) ≠ "" by decide)
    | bool b =>
      exact absurd h (show ("echo \x27Unknown step type\x27" : String) ≠ "" by decide)
    | null =>
      exact absurd h (show ("echo \x27Unknown step type\x27" : String) ≠ "" by decide)
    | arr l =>
      exact absurd h (show ("echo \x27Unknown step type\x27" : String) ≠ "" by decide)
    | map m =>
      cases m with
      | nil =>
        exact absurd h (show ("echo \x27Unknown step type\x27" : String) ≠ "" by decide)
      | cons kv rest =>
        obtain ⟨key, value⟩ := kv
        have h' : convertStepEntry key value = "" := h
        rcases convertStepEntry_empty h' with ⟨hv, hk⟩
        subst hv
        exact ⟨key, rest, rfl, hk⟩
  · rintro ⟨key, rest, hstep, hkey⟩
    subst hstep
    show convertStepEntry key (YVal.str "") = ""
    unfold convertStepEntry
    simp only [handledStepKeys, List.mem_cons, List.mem_singleton, not_or] at hkey
    obtain ⟨hk1, hk2, hk3, hk4, hk5, hk6, hk7, hk8, -⟩ := hkey
    rw [if_neg hk1, if_neg hk2, if_neg hk3, if_neg hk4, if_neg hk5, if_neg hk6, if_neg hk7,
      if_neg hk8]

theorem claim10_counterexample :
    convertStepToCommand (YVal.map [("custom", YVal.str "")]) = "" := rfl

end CircleToTask
